import Mathlib

/-!
Shallow embedding of the stack-snippets markdown plugin
(src/shared/plugins/stack-snippets/schema.ts) and of the escape-preserving
markdown-it inline rule (buildPreserveEscapeFn).  Source strings are
modelled as lists of characters (`Str`); a document is a list of source
lines, mirroring markdown-it's line-indexed view of `state.src` through
`bMarks`/`eMarks`.
-/

abbrev Str := List Char

def lit (s : String) : Str := s.data

/-- A well-formed source line has no embedded newline character. -/
def noNl (l : Str) : Prop := '\n' ∉ l

instance (l : Str) : Decidable (noNl l) := by unfold noNl; infer_instance

/-! ### Literal fragments of the three regular expressions in schema.ts -/

def vBeginLit : Str := '<' :: lit "!-- begin snippet:"
def vEndLit : Str := '<' :: lit "!-- end snippet "
def vLangLit : Str := '<' :: lit "!-- language:"
def arrowLit : Str := lit "-->"
def beginSnipLit : Str := '<' :: lit "!-- begin snippet: js "
def langPrefixLit : Str := '<' :: lit "!-- language: lang-"
def endMarkerStr : Str := '<' :: lit "!-- end snippet -->"

/-! ### Deterministic matchers for the three anchored regular expressions

`validSnippetRegex`, `langSnippetRegex` and `startSnippetRegex` are built
from literal alternatives whose first characters differ, single `\s`
character classes and the fixed tail `-->`, so each of them is equivalent
to a deterministic left-to-right parser: no backtracking between
alternatives is ever possible. -/

def consumeLit (p s : Str) : Option Str :=
  if p.isPrefixOf s then some (s.drop p.length) else none

/-- The character class of the JavaScript regular-expression escape `\s`. -/
def isJsWs (c : Char) : Bool :=
  c == ' ' || c == '\t' || c == '\n' || c == '\x0b' || c == '\x0c' || c == '\r' ||
  c == ' ' || c == ' ' || (0x2000 ≤ c.toNat && c.toNat ≤ 0x200a) ||
  c == ' ' || c == ' ' || c == ' ' || c == ' ' ||
  c == '　' || c == '﻿'

def consumeWs : Str → Option Str
  | c :: r => if isJsWs c then some r else none
  | [] => none

/-- The alternation `true|false|null` of `startSnippetRegex`, tried in the
regular expression's left-to-right order. -/
def parseTri (s : Str) : Option (Str × Str) :=
  match consumeLit (lit "true") s with
  | some r => some (lit "true", r)
  | none =>
    match consumeLit (lit "false") s with
    | some r => some (lit "false", r)
    | none =>
      match consumeLit (lit "null") s with
      | some r => some (lit "null", r)
      | none => none

/-- One `(?:name: (?:true|false|null)\s)` group of `startSnippetRegex`. -/
def consumeField (name : String) (s : Str) : Option (Str × Str) :=
  (consumeLit (lit name) s).bind fun s1 =>
  (parseTri s1).bind fun p =>
  (consumeWs p.2).map fun s3 => (p.1, s3)

/-- `startSnippetRegex`: anchored at the start of the line only; the five
named groups are returned in declaration order. -/
def startSnippetMatch (s : Str) : Option (Str × Str × Str × Str × Str) :=
  (consumeLit beginSnipLit s).bind fun s0 =>
  (consumeField "hide: " s0).bind fun p1 =>
  (consumeField "console: " p1.2).bind fun p2 =>
  (consumeField "babel: " p2.2).bind fun p3 =>
  (consumeField "babelPresetReact: " p3.2).bind fun p4 =>
  (consumeField "babelPresetTS: " p4.2).bind fun p5 =>
  (consumeLit arrowLit p5.2).map fun _ => (p1.1, p2.1, p3.1, p4.1, p5.1)

/-- The alternation `css|html|js` of `langSnippetRegex`. -/
def parseLangTok (s : Str) : Option (Str × Str) :=
  match consumeLit (lit "css") s with
  | some r => some (lit "css", r)
  | none =>
    match consumeLit (lit "html") s with
    | some r => some (lit "html", r)
    | none =>
      match consumeLit (lit "js") s with
      | some r => some (lit "js", r)
      | none => none

/-- `langSnippetRegex`: anchored at the start of the line only. -/
def langSnippetMatch (s : Str) : Option Str :=
  (consumeLit langPrefixLit s).bind fun s1 =>
  (parseLangTok s1).bind fun p =>
  (consumeLit (' ' :: arrowLit) p.2).map fun _ => p.1

/-- The `(.*)-->$` tail of `validSnippetRegex`: the rest of the line must
end in the literal `-->` and the middle must not contain a newline (the
dot does not match newlines and the dollar is not in multiline mode). -/
def midOk (rest : Str) : Bool :=
  arrowLit.isSuffixOf rest && !((rest.take (rest.length - 3)).contains '\n')

/-- `validSnippetRegex`, anchored at both ends. -/
def validSnippetTest (l : Str) : Bool :=
  match consumeLit vBeginLit l with
  | some rest => midOk rest
  | none =>
    match consumeLit vEndLit l with
    | some rest => midOk rest
    | none =>
      match consumeLit vLangLit l with
      | some rest => midOk rest
      | none => false

/-! ### Meta lines (schema.ts lines 60-129) -/

structure RawContext where
  line : Str
  index : Nat
deriving DecidableEq, Repr

inductive MetaLine where
  | mlBegin (index : Nat) (hide console babel babelPresetReact babelPresetTS : Str)
  | mlEnd (index : Nat)
  | mlLang (index : Nat) (language : Str)
deriving DecidableEq, Repr

def MetaLine.index : MetaLine → Nat
  | .mlBegin i _ _ _ _ _ => i
  | .mlEnd i => i
  | .mlLang i _ => i

def MetaLine.isLang : MetaLine → Bool
  | .mlLang _ _ => true
  | _ => false

def MetaLine.langName : MetaLine → Str
  | .mlLang _ l => l
  | _ => []

/-- JavaScript `x || "null"`: the empty string is falsy. -/
def jsOrNull (s : Str) : Str := if s = [] then lit "null" else s

/-- `mapMetaLine` (schema.ts lines 91-129). -/
def mapMetaLine (rc : RawContext) : Option MetaLine :=
  if rc.line = endMarkerStr then some (.mlEnd rc.index)
  else
    match langSnippetMatch rc.line with
    | some l => some (.mlLang rc.index l)
    | none =>
      match startSnippetMatch rc.line with
      | some (h, c, b, r, t) =>
        if h ≠ [] ∧ c ≠ [] ∧ b ≠ [] ∧ r ≠ [] ∧ t ≠ [] then
          some (.mlBegin rc.index (jsOrNull h) (jsOrNull c) (jsOrNull b)
            (jsOrNull r) (jsOrNull t))
        else none
      | none => none

/-! ### Region validation (schema.ts lines 131-202) -/

structure ValidationResult where
  valid : Bool
  beginIndex : Option Nat := none
  endIndex : Option Nat := none
  htmlIndex : Option Nat := none
  cssIndex : Option Nat := none
  jsIndex : Option Nat := none
  reason : Option String := none
deriving DecidableEq, Repr

/-- JavaScript truthiness of an optional number field: `undefined` and `0`
are both falsy.  This is the test the duplicate guards in
`validateMetaLines` perform (`if (validationResult.beginIndex)` etc.). -/
def truthy : Option Nat → Bool
  | none => false
  | some n => !(n == 0)

def dupFail (r : String) : ValidationResult := { valid := false, reason := some r }

/-- The loose-inequality completion test
`beginIndex != null && endIndex != null` (`0 != null` is true). -/
def completeCheck (acc : ValidationResult) : Bool :=
  acc.beginIndex.isSome && acc.endIndex.isSome

def finishValid (acc : ValidationResult) : ValidationResult :=
  { acc with valid := true, reason := none }

/-- The scanning loop of `validateMetaLines`: each early `return` is a
direct result, the `break` on completion stops the recursion. -/
def validateGo : ValidationResult → List MetaLine → ValidationResult
  | acc, [] => acc
  | acc, m :: rest =>
    match m with
    | .mlBegin i _ _ _ _ _ =>
      if truthy acc.beginIndex then dupFail "Duplicate Begin block"
      else
        let acc' := { acc with beginIndex := some i }
        if completeCheck acc' then finishValid acc' else validateGo acc' rest
    | .mlEnd i =>
      if truthy acc.endIndex then dupFail "Duplicate End block"
      else
        let acc' := { acc with endIndex := some i }
        if completeCheck acc' then finishValid acc' else validateGo acc' rest
    | .mlLang i l =>
      if l = lit "js" then
        if truthy acc.jsIndex then dupFail "Duplicate JS block"
        else
          let acc' := { acc with jsIndex := some i }
          if completeCheck acc' then finishValid acc' else validateGo acc' rest
      else if l = lit "html" then
        if truthy acc.htmlIndex then dupFail "Duplicate HTML block"
        else
          let acc' := { acc with htmlIndex := some i }
          if completeCheck acc' then finishValid acc' else validateGo acc' rest
      else if l = lit "css" then
        if truthy acc.cssIndex then dupFail "Duplicate CSS block"
        else
          let acc' := { acc with cssIndex := some i }
          if completeCheck acc' then finishValid acc' else validateGo acc' rest
      else
        if completeCheck acc then finishValid acc else validateGo acc rest

def initialValidation : ValidationResult :=
  { valid := false, reason := some "Did not discover beginning and end" }

/-- `validateMetaLines` (schema.ts lines 141-202). -/
def validateMetaLines (metaLines : List MetaLine) : ValidationResult :=
  validateGo initialValidation metaLines

/-- Observer of the same loop: `true` iff the scan runs off the end of the
list without an early duplicate return and without the completion break. -/
def scanExhausts : ValidationResult → List MetaLine → Bool
  | _, [] => true
  | acc, m :: rest =>
    match m with
    | .mlBegin i _ _ _ _ _ =>
      if truthy acc.beginIndex then false
      else
        let acc' := { acc with beginIndex := some i }
        if completeCheck acc' then false else scanExhausts acc' rest
    | .mlEnd i =>
      if truthy acc.endIndex then false
      else
        let acc' := { acc with endIndex := some i }
        if completeCheck acc' then false else scanExhausts acc' rest
    | .mlLang i l =>
      if l = lit "js" then
        if truthy acc.jsIndex then false
        else
          let acc' := { acc with jsIndex := some i }
          if completeCheck acc' then false else scanExhausts acc' rest
      else if l = lit "html" then
        if truthy acc.htmlIndex then false
        else
          let acc' := { acc with htmlIndex := some i }
          if completeCheck acc' then false else scanExhausts acc' rest
      else if l = lit "css" then
        if truthy acc.cssIndex then false
        else
          let acc' := { acc with cssIndex := some i }
          if completeCheck acc' then false else scanExhausts acc' rest
      else
        if completeCheck acc then false else scanExhausts acc rest

-- Sanity checks of the classifier on concrete lines.
example :
    mapMetaLine ⟨lit "<!-- end snippet -->", 7⟩ = some (.mlEnd 7) := by decide
example :
    mapMetaLine ⟨lit "<!-- language: lang-js -->", 3⟩ =
      some (.mlLang 3 (lit "js")) := by decide
example :
    mapMetaLine
      ⟨lit "<!-- begin snippet: js hide: null console: true babel: false babelPresetReact: null babelPresetTS: null -->", 0⟩ =
      some (.mlBegin 0 (lit "null") (lit "true") (lit "false") (lit "null") (lit "null")) := by
  decide
example : mapMetaLine ⟨lit "<!-- begin snippet: js console: true hide: null babel: false babelPresetReact: null babelPresetTS: null -->", 0⟩ = none := by decide
example : mapMetaLine ⟨lit "<!-- begin snippet: js hide: null console: true babel: false babelPresetReact: null -->", 0⟩ = none := by decide

/-! ### Block-state model (markdown-it StateBlock, restricted to a
top-level document: `bsCount` is zero and `bMarks`/`eMarks` delimit the
lines of `lines`; `tShift` and `sCount` are derived per line) -/

structure Token where
  type : String
  tag : String
  nesting : Int
  attrs : List (String × Str) := []
  content : Str := []
  map : Option (Nat × Nat) := none
  info : String := ""
deriving DecidableEq, Repr

/-- markdown-it `Token.attrGet`: the first attribute with the given name,
or null. -/
def Token.attrGet (t : Token) (name : String) : Option Str :=
  (t.attrs.find? (fun p => p.1 == name)).map (·.2)

structure StateBlock where
  lines : List Str
  blkIndent : Nat := 0
  tokens : List Token := []
  line : Nat := 0
deriving DecidableEq, Repr

def lineAt (lines : List Str) (i : Nat) : Str := lines.getD i []

/-- markdown-it `tShift`: offset of the first character after the line's
leading whitespace (space or tab). -/
def tShiftOf : Str → Nat
  | [] => 0
  | c :: r => if c = ' ' ∨ c = '\t' then tShiftOf r + 1 else 0

def sCountGo : Str → Nat → Nat
  | [], acc => acc
  | c :: r, acc =>
    if c = ' ' then sCountGo r (acc + 1)
    else if c = '\t' then sCountGo r (acc + (4 - acc % 4))
    else acc

/-- markdown-it `sCount`: the expanded width of the line's indentation,
with tab stops every four columns. -/
def sCountOf (l : Str) : Nat := sCountGo l 0

def sliceL (lines : List Str) (b e : Nat) : List Str := (lines.take e).drop b

/-- The indentation-stripping loop of markdown-it `StateBlock.getLines`
(with `bsCount = 0`): consume leading spaces/tabs while fewer than
`indent` columns have been skipped, returning the rest of the line and
the number of columns actually skipped. -/
def stripGo : Str → Nat → Nat → Str × Nat
  | [], _, li => ([], li)
  | c :: r, indent, li =>
    if li < indent then
      if c = '\t' then stripGo r indent (li + (4 - li % 4))
      else if c = ' ' then stripGo r indent (li + 1)
      else (c :: r, li)
    else (c :: r, li)

/-- Per-line de-indentation of `getLines`: if a tab overshoots the
requested indent the difference is re-padded with spaces. -/
def stripIndent (indent : Nat) (l : Str) : Str :=
  if indent < (stripGo l indent 0).2 then
    List.replicate ((stripGo l indent 0).2 - indent) ' ' ++ (stripGo l indent 0).1
  else (stripGo l indent 0).1

def joinNl : List Str → Str
  | [] => []
  | [l] => l
  | l :: rest => l ++ '\n' :: joinNl rest

/-- JavaScript `s.split("\n")` (always at least one piece). -/
def splitNl : Str → List Str
  | [] => [[]]
  | c :: r =>
    if c = '\n' then [] :: splitNl r
    else
      match splitNl r with
      | s :: ss => (c :: s) :: ss
      | [] => [[c]]

/-- `StateBlock.getLines(begin, end, indent, false)`: the selected lines,
each stripped of up to `indent` columns of indentation, joined with
newlines and without a trailing newline. -/
def getLinesModel (lines : List Str) (b e indent : Nat) : Str :=
  if e ≤ b then [] else joinNl ((sliceL lines b e).map (stripIndent indent))

/-! ### The recognition rule `parseSnippetBlock` (schema.ts lines 204-292) -/

/-- The meta-line collection loop: a line is collected when its first
character is `<` (char code 60) and it passes `validSnippetRegex`. -/
def collectMeta : List Str → Nat → List RawContext
  | [], _ => []
  | l :: rest, i =>
    (if (match l with | c :: _ => c == '<' | [] => false) && validSnippetTest l
     then [⟨l, i⟩] else []) ++ collectMeta rest (i + 1)

/-- Stable insertion used to model `Array.prototype.sort` with the
comparator `(a, b) => a.index - b.index` (a stable sort; on the
already-collected meta lines all indices are distinct and ascending, so
any correct stable sort has the same behaviour). -/
def insertByIdx (x : MetaLine) : List MetaLine → List MetaLine
  | [] => [x]
  | h :: t => if h.index ≤ x.index then h :: insertByIdx x t else x :: h :: t

def sortGo : List MetaLine → List MetaLine → List MetaLine
  | acc, [] => acc
  | acc, x :: xs => sortGo (insertByIdx x acc) xs

def sortByIdx (ms : List MetaLine) : List MetaLine := sortGo [] ms

def mkOpenToken (h c b r t : Str) : Token :=
  { type := "stack_snippet_open", tag := "code", nesting := 1,
    attrs := [("hide", h), ("console", c), ("babel", b),
              ("babelPresetReact", r), ("babelPresetTS", t)] }

def closeToken : Token :=
  { type := "stack_snippet_close", tag := "code", nesting := -1 }

/-- The token-emission loop over the sorted language meta-lines: the end
of each language block is the next language marker, or the end marker for
the last one; content starts two lines after the marker and stops one
line before the block end, de-indented by four columns. -/
def langTokens (lines : List Str) : List MetaLine → Nat → List Token
  | [], _ => []
  | m :: rest, eIdx =>
    let langEnd := match rest with
      | [] => eIdx
      | m2 :: _ => m2.index
    { type := "stack_snippet_lang", tag := "code", nesting := 1,
      attrs := [("language", m.langName)],
      content := getLinesModel lines (m.index + 2) (langEnd - 1) 4,
      map := some (m.index, langEnd) } :: langTokens lines rest eIdx

/-- `parseSnippetBlock`: returns the rule's boolean result together with
the state after the call (the only mutations the rule performs are token
pushes and the final cursor assignment `state.line = end.index + 1`).
The two code paths that the original would reach only after calling
`shift`/`pop` on a list too short to contain them are unreachable
(validity guarantees both a begin and an end were collected) and are
modelled as a plain non-match. -/
def parseSnippetBlock (st : StateBlock) (startLine endLine : Nat) (silent : Bool) :
    Bool × StateBlock :=
  if 4 ≤ (sCountOf (lineAt st.lines startLine) : Int) - (st.blkIndent : Int) then
    (false, st)
  else if st.blkIndent ≠ 0 ∨ tShiftOf (lineAt st.lines startLine) ≠ 0 then
    (false, st)
  else if validSnippetTest (lineAt st.lines startLine) = false then
    (false, st)
  else
    let rawMetaLines := collectMeta (sliceL st.lines startLine endLine) startLine
    let metaLines := rawMetaLines.filterMap mapMetaLine
    let vr := validateMetaLines metaLines
    if silent || !vr.valid then (vr.valid, st)
    else
      match metaLines with
      | MetaLine.mlBegin _ h c b r t :: rest =>
        match rest.getLast? with
        | some (MetaLine.mlEnd eIdx) =>
          let mids := rest.dropLast
          let langSort := sortByIdx (mids.filter MetaLine.isLang)
          if langSort.all MetaLine.isLang = false then (false, st)
          else
            (true, { st with
              tokens := st.tokens ++ mkOpenToken h c b r t ::
                (langTokens st.lines langSort eIdx ++ [closeToken]),
              line := eIdx + 1 })
        | _ => (false, st)
      | _ => (false, st)

/-! ### Document tree (SnippetNode / LangNode, section 3 of the spec) -/

structure LangNode where
  language : Str
  content : Str
deriving DecidableEq, Repr

structure SnippetNode where
  hide : Option Str := none
  console : Option Str := none
  babel : Option Str := none
  babelPresetReact : Option Str := none
  babelPresetTS : Option Str := none
  children : List LangNode := []
deriving DecidableEq, Repr

/-- Modelled from the spec: `getSnippetMetadata` lives in
stack-snippets/common.ts, which is not among the provided sources.
Section 4.4 of the spec states the serializer renders each attribute's
current value, falling back to the string "null" if absent. -/
def getSnippetMetadata (n : SnippetNode) : Str × Str × Str × Str × Str :=
  (n.hide.getD (lit "null"), n.console.getD (lit "null"),
   n.babel.getD (lit "null"), n.babelPresetReact.getD (lit "null"),
   n.babelPresetTS.getD (lit "null"))

/-- Modelled from the spec: the token-to-tree translation is performed by
`prosemirror-markdown` (an external collaborator) driven by
`stackSnippetMarkdownParser`; per section 6 a token stream of the shape
open-attrs, one lang token per language, close builds one SnippetNode
whose children are the LangNodes in stream order.  The attribute names
read here are exactly those of `stackSnippetMarkdownParser.getAttrs`. -/
def langsFromTokens : List Token → Option (List LangNode)
  | [] => none
  | [t] => if t.type == "stack_snippet_close" then some [] else none
  | t :: rest =>
    if t.type == "stack_snippet_lang" then
      (langsFromTokens rest).map
        (fun ls => ⟨(t.attrGet "language").getD [], t.content⟩ :: ls)
    else none

def snippetFromTokens (ts : List Token) : Option SnippetNode :=
  match ts with
  | t :: rest =>
    if t.type == "stack_snippet_open" then
      (langsFromTokens rest).map (fun ls =>
        { hide := t.attrGet "hide", console := t.attrGet "console",
          babel := t.attrGet "babel",
          babelPresetReact := t.attrGet "babelPresetReact",
          babelPresetTS := t.attrGet "babelPresetTS",
          children := ls })
    else none
  | [] => none

/-- Running the recognition rule in committing mode over a whole document
and building the SnippetNode from the emitted tokens. -/
def parseDoc (lines : List Str) : Option SnippetNode :=
  let res := parseSnippetBlock { lines := lines } 0 lines.length false
  if res.1 then snippetFromTokens res.2.tokens else none

/-! ### The markdown serializer (schema.ts lines 28-51) -/

def beginMarkerLine (h c b r t : Str) : Str :=
  beginSnipLit ++ lit "hide: " ++ h ++
  ' ' :: lit "console: " ++ c ++ ' ' :: lit "babel: " ++ b ++
  ' ' :: lit "babelPresetReact: " ++ r ++ ' ' :: lit "babelPresetTS: " ++ t ++
  ' ' :: arrowLit

def langMarkerLine (l : Str) : Str := langPrefixLit ++ l ++ ' ' :: arrowLit

/-- The padding map of the serializer: four spaces on non-empty lines,
no padding on empty lines. -/
def padLine (l : Str) : Str := if l = [] then l else lit "    " ++ l

/-- The write loop `for i in spacedContent: state.write(line + "\n")`. -/
def flatMapNl (ls : List Str) : Str := ls.flatMap (fun l => l ++ ['\n'])

def serializeBlocks : List LangNode → Str
  | [] => []
  | ch :: rest =>
    langMarkerLine ch.language ++ '\n' :: '\n' ::
    (flatMapNl ((splitNl ch.content).map padLine) ++ '\n' :: serializeBlocks rest)

/-- `stackSnippetMarkdownSerializer.stack_snippet`: the concatenation of
all its `state.write` calls. -/
def serializeSnippet (n : SnippetNode) : Str :=
  let m := getSnippetMetadata n
  beginMarkerLine m.1 m.2.1 m.2.2.1 m.2.2.2.1 m.2.2.2.2 ++
  '\n' :: '\n' :: (serializeBlocks n.children ++ endMarkerStr)

/-! ### Valid envelopes (sections 3 and 6 of the spec)

A valid envelope is the textual form given in section 6: the begin marker
with five tri-state fields, one blank line, then for each declared
language its marker line, a blank line, its content lines and a blank
separator line, and finally the end marker.  Content lines are arbitrary
lines that are not themselves marker-shaped (empty, or not starting with
the marker-opening character); languages are pairwise distinct. -/

structure EnvBlock where
  language : Str
  srcLines : List Str
deriving DecidableEq, Repr

structure Envelope where
  hide : Str
  console : Str
  babel : Str
  babelPresetReact : Str
  babelPresetTS : Str
  blocks : List EnvBlock
deriving DecidableEq, Repr

def triStr (s : Str) : Prop := s = lit "true" ∨ s = lit "false" ∨ s = lit "null"

def langTok (s : Str) : Prop := s = lit "js" ∨ s = lit "css" ∨ s = lit "html"

def contentLineOk (l : Str) : Prop := noNl l ∧ l.head? ≠ some '<'

def Envelope.WF (e : Envelope) : Prop :=
  triStr e.hide ∧ triStr e.console ∧ triStr e.babel ∧
  triStr e.babelPresetReact ∧ triStr e.babelPresetTS ∧
  (∀ b ∈ e.blocks, langTok b.language ∧ ∀ l ∈ b.srcLines, contentLineOk l) ∧
  (e.blocks.map EnvBlock.language).Pairwise (· ≠ ·)

def renderBlock (b : EnvBlock) : List Str :=
  langMarkerLine b.language :: [] :: b.srcLines ++ [[]]

def renderBlocks : List EnvBlock → List Str
  | [] => []
  | b :: bs => renderBlock b ++ renderBlocks bs

def renderEnvelope (e : Envelope) : List Str :=
  beginMarkerLine e.hide e.console e.babel e.babelPresetReact e.babelPresetTS ::
  [] :: renderBlocks e.blocks ++ [endMarkerStr]

def blockLen (b : EnvBlock) : Nat := b.srcLines.length + 3

def lenBlocks : List EnvBlock → Nat
  | [] => 0
  | b :: bs => blockLen b + lenBlocks bs

/-- The meta lines an envelope's language markers classify to, with their
source line indices. -/
def langMetas : List EnvBlock → Nat → List MetaLine
  | [], _ => []
  | b :: bs, off => MetaLine.mlLang off b.language :: langMetas bs (off + blockLen b)

/-- The SnippetNode the extractor produces from a rendered envelope. -/
def nodeOfEnvelope (e : Envelope) : SnippetNode :=
  { hide := some e.hide, console := some e.console, babel := some e.babel,
    babelPresetReact := some e.babelPresetReact,
    babelPresetTS := some e.babelPresetTS,
    children := e.blocks.map fun b =>
      { language := b.language,
        content := joinNl (b.srcLines.map (stripIndent 4)) } }

/-- The envelope whose rendering is exactly the serializer's output for a
node: the node's attribute values with the "null" fallback, and each
child's content lines re-padded by the serializer's convention. -/
def envOfNode (n : SnippetNode) : Envelope :=
  { hide := n.hide.getD (lit "null"), console := n.console.getD (lit "null"),
    babel := n.babel.getD (lit "null"),
    babelPresetReact := n.babelPresetReact.getD (lit "null"),
    babelPresetTS := n.babelPresetTS.getD (lit "null"),
    blocks := n.children.map fun ch =>
      { language := ch.language, srcLines := (splitNl ch.content).map padLine } }

/-- Written from the claim's words (C7): the serializer's output, line by
line — the begin marker with the five fields in the fixed order with the
"null" fallback, a blank line, then for each child in document order its
language marker, a blank line, its content lines with every non-empty
line prefixed by four spaces and empty lines unpadded, a blank line, and
finally the end marker. -/
def specSerializeLines (n : SnippetNode) : List Str :=
  beginMarkerLine (n.hide.getD (lit "null")) (n.console.getD (lit "null"))
    (n.babel.getD (lit "null")) (n.babelPresetReact.getD (lit "null"))
    (n.babelPresetTS.getD (lit "null")) ::
  [] :: (n.children.flatMap
    (fun ch => langMarkerLine ch.language :: [] ::
      ((splitNl ch.content).map padLine ++ [[]])) ++ [endMarkerStr])

/-! ### The escape-preserving inline rule (buildPreserveEscapeFn) -/

structure InlineState where
  tokens : List Token := []
  pos : Nat := 0
deriving DecidableEq, Repr

/-- A markdown-it inline rule acting on the inline state; the Bool result
is the match flag. -/
def InlineRule := InlineState → Bool → Bool × InlineState

/-- `findLast (t => t.info == "escape")` followed by the type mutation,
expressed on the reversed list. -/
def retagFirstRev : List Token → List Token
  | [] => []
  | t :: r =>
    if t.info == "escape" then { t with type := "escape" } :: r
    else t :: retagFirstRev r

def retagLastEscape (ts : List Token) : List Token :=
  (retagFirstRev ts.reverse).reverse

/-- `buildPreserveEscapeFn`: looks up the first rule named "escape" in the
host's inline rule set; without one the wrapper is a constant non-match,
otherwise it delegates and, on a non-silent match, retags the most recent
token whose info is "escape". -/
def buildPreserveEscapeFn (rules : List (String × InlineRule)) : InlineRule :=
  match rules.filter (fun r => r.1 == "escape") with
  | [] => fun st _ => (false, st)
  | (_, escapeFn) :: _ => fun st silent =>
    let p := escapeFn st silent
    if silent || !p.1 then p
    else (p.1, { p.2 with tokens := retagLastEscape p.2.tokens })

/-- The outcome of one iteration of the validateMetaLines loop: an early
result (duplicate return or completion break) or the updated accumulator. -/
inductive StepRes where
  | halt (r : ValidationResult)
  | cont (acc : ValidationResult)
deriving DecidableEq, Repr

/-- One iteration of the validateMetaLines loop as a function. -/
def valStep (acc : ValidationResult) : MetaLine → StepRes
  | .mlBegin i _ _ _ _ _ =>
    if truthy acc.beginIndex then .halt (dupFail "Duplicate Begin block")
    else
      let acc' := { acc with beginIndex := some i }
      if completeCheck acc' then .halt (finishValid acc') else .cont acc'
  | .mlEnd i =>
    if truthy acc.endIndex then .halt (dupFail "Duplicate End block")
    else
      let acc' := { acc with endIndex := some i }
      if completeCheck acc' then .halt (finishValid acc') else .cont acc'
  | .mlLang i l =>
    if l = lit "js" then
      if truthy acc.jsIndex then .halt (dupFail "Duplicate JS block")
      else
        let acc' := { acc with jsIndex := some i }
        if completeCheck acc' then .halt (finishValid acc') else .cont acc'
    else if l = lit "html" then
      if truthy acc.htmlIndex then .halt (dupFail "Duplicate HTML block")
      else
        let acc' := { acc with htmlIndex := some i }
        if completeCheck acc' then .halt (finishValid acc') else .cont acc'
    else if l = lit "css" then
      if truthy acc.cssIndex then .halt (dupFail "Duplicate CSS block")
      else
        let acc' := { acc with cssIndex := some i }
        if completeCheck acc' then .halt (finishValid acc') else .cont acc'
    else
      if completeCheck acc then .halt (finishValid acc) else .cont acc

/-- The per-language position field of the accumulator. -/
def accLangField (acc : ValidationResult) (l : Str) : Option Nat :=
  if l = lit "js" then acc.jsIndex
  else if l = lit "html" then acc.htmlIndex
  else if l = lit "css" then acc.cssIndex
  else none


/-- The language tokens the extractor emits for a rendered envelope's
blocks: for the block whose marker sits at line `off`, the block end is
the next marker's line (`off + blockLen b`), which for the last block is
also the end marker's line. -/
def expectedToks (bs : List EnvBlock) (off : Nat) : List Token :=
  match bs with
  | [] => []
  | b :: rest =>
    { type := "stack_snippet_lang", tag := "code", nesting := 1,
      attrs := [("language", b.language)],
      content := joinNl (b.srcLines.map (stripIndent 4)),
      map := some (off, off + blockLen b) } :: expectedToks rest (off + blockLen b)

/-- Decidability of the well-formedness side conditions, so witnesses can
be checked by evaluation. -/
instance (s : Str) : Decidable (triStr s) := by unfold triStr; infer_instance

instance (s : Str) : Decidable (langTok s) := by unfold langTok; infer_instance

instance (l : Str) : Decidable (contentLineOk l) := by
  unfold contentLineOk; infer_instance

instance (e : Envelope) : Decidable e.WF := by
  unfold Envelope.WF; infer_instance

/-- The envelope of section 6 of the spec, used as a concrete witness. -/
def exampleEnvelope : Envelope :=
  { hide := lit "null", console := lit "true", babel := lit "false",
    babelPresetReact := lit "null", babelPresetTS := lit "null",
    blocks := [
      { language := lit "js", srcLines := [lit "    console.log(1);"] },
      { language := lit "css", srcLines := [lit "    body: red;"] }] }

/-- A constant non-matching inline rule, used as a concrete delegate in
witnesses. -/
def constFalseRule : InlineRule := fun st _ => (false, st)

/-! ## Basic lemmas about the literal-consuming matchers -/

lemma consumeLit_self (p r : Str) : consumeLit p (p ++ r) = some r := by
  have h : p.isPrefixOf (p ++ r) = true := by
    rw [List.isPrefixOf_iff_prefix]; exact ⟨r, rfl⟩
  simp [consumeLit, h]

lemma consumeLit_some (p s r : Str) (h : consumeLit p s = some r) : s = p ++ r := by
  unfold consumeLit at h
  split at h
  · next hp =>
    rw [List.isPrefixOf_iff_prefix] at hp
    obtain ⟨t, rfl⟩ := hp
    simp at h
    rw [← h]
  · exact absurd h (by simp)

/-- A literal cannot match past a shorter literal that is not its prefix. -/
lemma consumeLit_append_none₂ (p q r : Str) (hq : q.isPrefixOf p = false)
    (hlen : q.length ≤ p.length) : consumeLit p (q ++ r) = none := by
  have hfalse : p.isPrefixOf (q ++ r) = false := by
    by_contra hc
    rw [Bool.not_eq_false, List.isPrefixOf_iff_prefix] at hc
    obtain ⟨t, ht⟩ := hc
    have h1 : p.take q.length = q := by
      have h2 := congrArg (List.take q.length) ht
      rwa [List.take_append_of_le_length hlen, List.take_left] at h2
    have h3 : q <+: p := h1 ▸ List.take_prefix q.length p
    rw [← List.isPrefixOf_iff_prefix, hq] at h3
    exact Bool.false_ne_true h3
  simp [consumeLit, hfalse]

/-- A longer literal cannot match where its own prefix of the input's
length already disagrees. -/
lemma consumeLit_append_none₁ (p q r : Str) (hq : p.isPrefixOf q = false)
    (hlen : p.length ≤ q.length) : consumeLit p (q ++ r) = none := by
  have hfalse : p.isPrefixOf (q ++ r) = false := by
    by_contra hc
    rw [Bool.not_eq_false, List.isPrefixOf_iff_prefix] at hc
    obtain ⟨t, ht⟩ := hc
    have h1 : p <+: q := by
      rw [List.prefix_iff_eq_take]
      have h2 := congrArg (List.take p.length) ht
      rw [List.take_left, List.take_append_of_le_length hlen] at h2
      exact h2
    rw [← List.isPrefixOf_iff_prefix, hq] at h1
    exact Bool.false_ne_true h1
  simp [consumeLit, hfalse]

lemma triStr_noNl (s : Str) (h : triStr s) : noNl s := by
  rcases h with h | h | h <;> subst h <;> decide

lemma langTok_noNl (s : Str) (h : langTok s) : noNl s := by
  rcases h with h | h | h <;> subst h <;> decide

lemma triStr_ne_nil (s : Str) (h : triStr s) : s ≠ [] := by
  rcases h with h | h | h <;> subst h <;> decide

lemma jsOrNull_of_triStr (s : Str) (h : triStr s) : jsOrNull s = s := by
  rw [jsOrNull, if_neg (triStr_ne_nil s h)]

/-! ## Lemmas about parseTri / consumeWs / consumeField -/

lemma parseTri_self (v r : Str) (hv : triStr v) : parseTri (v ++ r) = some (v, r) := by
  have htrue : lit "true" = ['t', 'r', 'u', 'e'] := by decide
  have hfalse : lit "false" = ['f', 'a', 'l', 's', 'e'] := by decide
  have hnull : lit "null" = ['n', 'u', 'l', 'l'] := by decide
  rcases hv with h | h | h <;> subst h <;>
    simp [parseTri, consumeLit, htrue, hfalse, hnull, List.isPrefixOf]

lemma parseTri_some (s v r : Str) (h : parseTri s = some (v, r)) :
    triStr v ∧ s = v ++ r := by
  unfold parseTri at h
  cases h1 : consumeLit (lit "true") s with
  | some r1 =>
    rw [h1] at h
    simp only [Option.some.injEq, Prod.mk.injEq] at h
    obtain ⟨hv, hr⟩ := h
    subst hv; subst hr
    exact ⟨Or.inl rfl, consumeLit_some _ _ _ h1⟩
  | none =>
    rw [h1] at h
    cases h2 : consumeLit (lit "false") s with
    | some r2 =>
      rw [h2] at h
      simp only [Option.some.injEq, Prod.mk.injEq] at h
      obtain ⟨hv, hr⟩ := h
      subst hv; subst hr
      exact ⟨Or.inr (Or.inl rfl), consumeLit_some _ _ _ h2⟩
    | none =>
      rw [h2] at h
      cases h3 : consumeLit (lit "null") s with
      | some r3 =>
        rw [h3] at h
        simp only [Option.some.injEq, Prod.mk.injEq] at h
        obtain ⟨hv, hr⟩ := h
        subst hv; subst hr
        exact ⟨Or.inr (Or.inr rfl), consumeLit_some _ _ _ h3⟩
      | none => rw [h3] at h; exact absurd h (by simp)

lemma consumeWs_space (r : Str) : consumeWs (' ' :: r) = some r := by
  simp [consumeWs, show isJsWs ' ' = true from by decide]

lemma consumeWs_some (s r : Str) (h : consumeWs s = some r) :
    ∃ c, isJsWs c = true ∧ s = c :: r := by
  cases s with
  | nil => exact absurd h (by simp [consumeWs])
  | cons c cs =>
    simp only [consumeWs] at h
    split at h
    · next hw => exact ⟨c, hw, by injection h with h; rw [h]⟩
    · exact absurd h (by simp)

lemma consumeField_self (name : String) (v rest : Str) (hv : triStr v) :
    consumeField name (lit name ++ (v ++ ' ' :: rest)) = some (v, rest) := by
  unfold consumeField
  rw [consumeLit_self, Option.some_bind, parseTri_self v (' ' :: rest) hv,
    Option.some_bind, consumeWs_space]
  rfl

lemma consumeField_some (name : String) (s v rest : Str)
    (h : consumeField name s = some (v, rest)) :
    triStr v ∧ ∃ w, isJsWs w = true ∧ s = lit name ++ (v ++ w :: rest) := by
  unfold consumeField at h
  cases h1 : consumeLit (lit name) s with
  | none => rw [h1] at h; exact absurd h (by simp)
  | some s1 =>
    rw [h1, Option.some_bind] at h
    cases h2 : parseTri s1 with
    | none => rw [h2] at h; exact absurd h (by simp)
    | some p =>
      rw [h2, Option.some_bind] at h
      cases h3 : consumeWs p.2 with
      | none => rw [h3] at h; exact absurd h (by simp)
      | some s3 =>
        rw [h3] at h
        simp only [Option.map_some', Option.some.injEq, Prod.mk.injEq] at h
        obtain ⟨hv, hs3⟩ := h
        obtain ⟨htri, hs1⟩ := parseTri_some s1 p.1 p.2 (by rw [h2])
        obtain ⟨w, hw, hp2⟩ := consumeWs_some p.2 s3 h3
        subst hv; subst hs3
        exact ⟨htri, w, hw, by rw [consumeLit_some _ _ _ h1, hs1, hp2]⟩

/-! ## Lemmas about startSnippetMatch and langSnippetMatch -/

lemma startSnippetMatch_beginMarker (h c b r t tail : Str)
    (hh : triStr h) (hc : triStr c) (hb : triStr b) (hr : triStr r)
    (ht : triStr t) :
    startSnippetMatch (beginMarkerLine h c b r t ++ tail) =
      some (h, c, b, r, t) := by
  unfold startSnippetMatch beginMarkerLine
  simp only [List.append_assoc, List.cons_append]
  rw [consumeLit_self, Option.some_bind]
  rw [consumeField_self _ _ _ hh, Option.some_bind]
  rw [consumeField_self _ _ _ hc, Option.some_bind]
  rw [consumeField_self _ _ _ hb, Option.some_bind]
  rw [consumeField_self _ _ _ hr, Option.some_bind]
  rw [consumeField_self _ _ _ ht, Option.some_bind]
  rw [consumeLit_self]
  rfl

lemma startSnippetMatch_some (s h c b r t : Str)
    (hm : startSnippetMatch s = some (h, c, b, r, t)) :
    triStr h ∧ triStr c ∧ triStr b ∧ triStr r ∧ triStr t ∧
    ∃ w1 w2 w3 w4 w5 tail, isJsWs w1 = true ∧ isJsWs w2 = true ∧
      isJsWs w3 = true ∧ isJsWs w4 = true ∧ isJsWs w5 = true ∧
      s = beginSnipLit ++ (lit "hide: " ++ (h ++ w1 ::
        (lit "console: " ++ (c ++ w2 :: (lit "babel: " ++ (b ++ w3 ::
        (lit "babelPresetReact: " ++ (r ++ w4 ::
        (lit "babelPresetTS: " ++ (t ++ w5 :: (arrowLit ++ tail))))))))))) := by
  unfold startSnippetMatch at hm
  cases h0 : consumeLit beginSnipLit s with
  | none => rw [h0] at hm; exact absurd hm (by simp)
  | some s0 =>
    rw [h0, Option.some_bind] at hm
    cases h1 : consumeField "hide: " s0 with
    | none => rw [h1] at hm; exact absurd hm (by simp)
    | some p1 =>
      rw [h1, Option.some_bind] at hm
      cases h2 : consumeField "console: " p1.2 with
      | none => rw [h2] at hm; exact absurd hm (by simp)
      | some p2 =>
        rw [h2, Option.some_bind] at hm
        cases h3 : consumeField "babel: " p2.2 with
        | none => rw [h3] at hm; exact absurd hm (by simp)
        | some p3 =>
          rw [h3, Option.some_bind] at hm
          cases h4 : consumeField "babelPresetReact: " p3.2 with
          | none => rw [h4] at hm; exact absurd hm (by simp)
          | some p4 =>
            rw [h4, Option.some_bind] at hm
            cases h5 : consumeField "babelPresetTS: " p4.2 with
            | none => rw [h5] at hm; exact absurd hm (by simp)
            | some p5 =>
              rw [h5, Option.some_bind] at hm
              cases h6 : consumeLit arrowLit p5.2 with
              | none => rw [h6] at hm; exact absurd hm (by simp)
              | some s6 =>
                rw [h6] at hm
                simp only [Option.map_some', Option.some.injEq,
                  Prod.mk.injEq] at hm
                obtain ⟨e1, e2, e3, e4, e5⟩ := hm
                obtain ⟨t1, w1, hw1, q1⟩ := consumeField_some _ _ _ _ h1
                obtain ⟨t2, w2, hw2, q2⟩ := consumeField_some _ _ _ _ h2
                obtain ⟨t3, w3, hw3, q3⟩ := consumeField_some _ _ _ _ h3
                obtain ⟨t4, w4, hw4, q4⟩ := consumeField_some _ _ _ _ h4
                obtain ⟨t5, w5, hw5, q5⟩ := consumeField_some _ _ _ _ h5
                subst e1; subst e2; subst e3; subst e4; subst e5
                refine ⟨t1, t2, t3, t4, t5, w1, w2, w3, w4, w5, s6,
                  hw1, hw2, hw3, hw4, hw5, ?_⟩
                rw [consumeLit_some _ _ _ h0, q1, q2, q3, q4, q5,
                  consumeLit_some _ _ _ h6]

lemma parseLangTok_self (l r : Str) (hl : langTok l) :
    parseLangTok (l ++ r) = some (l, r) := by
  have hjs : lit "js" = ['j', 's'] := by decide
  have hcss : lit "css" = ['c', 's', 's'] := by decide
  have hhtml : lit "html" = ['h', 't', 'm', 'l'] := by decide
  rcases hl with h | h | h <;> subst h <;>
    simp [parseLangTok, consumeLit, hjs, hcss, hhtml, List.isPrefixOf]

lemma parseLangTok_some (s l r : Str) (h : parseLangTok s = some (l, r)) :
    langTok l ∧ s = l ++ r := by
  unfold parseLangTok at h
  cases h1 : consumeLit (lit "css") s with
  | some r1 =>
    rw [h1] at h
    simp only [Option.some.injEq, Prod.mk.injEq] at h
    obtain ⟨hv, hr⟩ := h
    subst hv; subst hr
    exact ⟨Or.inr (Or.inl rfl), consumeLit_some _ _ _ h1⟩
  | none =>
    rw [h1] at h
    cases h2 : consumeLit (lit "html") s with
    | some r2 =>
      rw [h2] at h
      simp only [Option.some.injEq, Prod.mk.injEq] at h
      obtain ⟨hv, hr⟩ := h
      subst hv; subst hr
      exact ⟨Or.inr (Or.inr rfl), consumeLit_some _ _ _ h2⟩
    | none =>
      rw [h2] at h
      cases h3 : consumeLit (lit "js") s with
      | some r3 =>
        rw [h3] at h
        simp only [Option.some.injEq, Prod.mk.injEq] at h
        obtain ⟨hv, hr⟩ := h
        subst hv; subst hr
        exact ⟨Or.inl rfl, consumeLit_some _ _ _ h3⟩
      | none => rw [h3] at h; exact absurd h (by simp)

lemma langSnippetMatch_marker (l tail : Str) (hl : langTok l) :
    langSnippetMatch (langMarkerLine l ++ tail) = some l := by
  unfold langSnippetMatch langMarkerLine
  simp only [List.append_assoc, List.cons_append]
  rw [consumeLit_self, Option.some_bind]
  rw [parseLangTok_self l (' ' :: (arrowLit ++ tail)) hl, Option.some_bind]
  have hre : (' ' :: (arrowLit ++ tail)) = (' ' :: arrowLit) ++ tail := by simp
  rw [hre, consumeLit_self]
  rfl

lemma langSnippetMatch_some (s l : Str) (h : langSnippetMatch s = some l) :
    langTok l ∧ ∃ tail, s = langPrefixLit ++ (l ++ ((' ' :: arrowLit) ++ tail)) := by
  unfold langSnippetMatch at h
  cases h0 : consumeLit langPrefixLit s with
  | none => rw [h0] at h; exact absurd h (by simp)
  | some s1 =>
    rw [h0, Option.some_bind] at h
    cases h1 : parseLangTok s1 with
    | none => rw [h1] at h; exact absurd h (by simp)
    | some p =>
      rw [h1, Option.some_bind] at h
      cases h2 : consumeLit (' ' :: arrowLit) p.2 with
      | none => rw [h2] at h; exact absurd h (by simp)
      | some s2 =>
        rw [h2] at h
        simp only [Option.map_some', Option.some.injEq] at h
        obtain ⟨htok, hs1⟩ := parseLangTok_some s1 p.1 p.2 (by rw [h1])
        subst h
        exact ⟨htok, s2, by
          rw [consumeLit_some _ _ _ h0, hs1, consumeLit_some _ _ _ h2]⟩

/-! ## Lemmas about validSnippetTest -/

lemma noNl_append (a b : Str) (ha : noNl a) (hb : noNl b) : noNl (a ++ b) :=
  fun hmem => (List.mem_append.mp hmem).elim ha hb

lemma noNl_cons (c : Char) (a : Str) (hc : ¬ ('\n' = c)) (ha : noNl a) :
    noNl (c :: a) := by
  intro hmem
  rcases List.mem_cons.mp hmem with h | h
  · exact hc h
  · exact ha h

lemma midOk_of_eq (rest m : Str) (heq : rest = m ++ arrowLit) (hm : noNl m) :
    midOk rest = true := by
  subst heq
  unfold midOk
  have h1 : arrowLit.isSuffixOf (m ++ arrowLit) = true := by
    rw [List.isSuffixOf_iff_suffix]; exact ⟨m, rfl⟩
  have hlen : (m ++ arrowLit).length - 3 = m.length := by
    simp [List.length_append, show arrowLit.length = 3 from by decide]
  have h2 : (m ++ arrowLit).take ((m ++ arrowLit).length - 3) = m := by
    rw [hlen]; exact List.take_left m arrowLit
  rw [h1, h2]
  simpa using hm

lemma validSnippetTest_vBegin (m : Str) (hm : noNl m) :
    validSnippetTest (vBeginLit ++ (m ++ arrowLit)) = true := by
  unfold validSnippetTest
  rw [consumeLit_self]
  exact midOk_of_eq _ m rfl hm

lemma validSnippetTest_vEnd (m : Str) (hm : noNl m) :
    validSnippetTest (vEndLit ++ (m ++ arrowLit)) = true := by
  unfold validSnippetTest
  rw [consumeLit_append_none₂ vBeginLit vEndLit _ (by decide) (by decide)]
  rw [consumeLit_self]
  exact midOk_of_eq _ m rfl hm

lemma validSnippetTest_vLang (m : Str) (hm : noNl m) :
    validSnippetTest (vLangLit ++ (m ++ arrowLit)) = true := by
  unfold validSnippetTest
  rw [consumeLit_append_none₂ vBeginLit vLangLit _ (by decide) (by decide)]
  rw [consumeLit_append_none₂ vEndLit vLangLit _ (by decide) (by decide)]
  rw [consumeLit_self]
  exact midOk_of_eq _ m rfl hm

lemma beginMarkerLine_split (h c b r t : Str) :
    beginMarkerLine h c b r t =
      vBeginLit ++ ((lit " js hide: " ++ (h ++ ' ' :: (lit "console: " ++
        (c ++ ' ' :: (lit "babel: " ++ (b ++ ' ' :: (lit "babelPresetReact: " ++
        (r ++ ' ' :: (lit "babelPresetTS: " ++ (t ++ [' '])))))))))) ++ arrowLit) := by
  unfold beginMarkerLine
  simp only [List.append_assoc, List.cons_append, List.singleton_append]
  rw [← List.append_assoc beginSnipLit (lit "hide: ")]
  rw [show beginSnipLit ++ lit "hide: " = vBeginLit ++ lit " js hide: " from by decide]
  simp [List.append_assoc]

lemma validSnippetTest_beginMarker (h c b r t : Str) (hh : triStr h)
    (hc : triStr c) (hb : triStr b) (hr : triStr r) (ht : triStr t) :
    validSnippetTest (beginMarkerLine h c b r t) = true := by
  rw [beginMarkerLine_split]
  apply validSnippetTest_vBegin
  refine noNl_append _ _ (by decide) ?_
  refine noNl_append _ _ (triStr_noNl h hh) (noNl_cons _ _ (by decide) ?_)
  refine noNl_append _ _ (by decide) ?_
  refine noNl_append _ _ (triStr_noNl c hc) (noNl_cons _ _ (by decide) ?_)
  refine noNl_append _ _ (by decide) ?_
  refine noNl_append _ _ (triStr_noNl b hb) (noNl_cons _ _ (by decide) ?_)
  refine noNl_append _ _ (by decide) ?_
  refine noNl_append _ _ (triStr_noNl r hr) (noNl_cons _ _ (by decide) ?_)
  refine noNl_append _ _ (by decide) ?_
  exact noNl_append _ _ (triStr_noNl t ht) (by decide)

lemma validSnippetTest_endMarker : validSnippetTest endMarkerStr = true := by decide

lemma validSnippetTest_langMarker (l : Str) (hl : langTok l) :
    validSnippetTest (langMarkerLine l) = true := by
  rcases hl with h | h | h <;> subst h <;> decide

/-! ## Classification of the rendered marker lines -/

lemma beginMarkerLine_length (h c b r t : Str) :
    (beginMarkerLine h c b r t).length =
      h.length + c.length + b.length + r.length + t.length + 86 := by
  unfold beginMarkerLine
  have e1 : beginSnipLit.length = 23 := by decide
  have e2 : (lit "hide: ").length = 6 := by decide
  have e3 : (lit "console: ").length = 9 := by decide
  have e4 : (lit "babel: ").length = 7 := by decide
  have e5 : (lit "babelPresetReact: ").length = 18 := by decide
  have e6 : (lit "babelPresetTS: ").length = 15 := by decide
  have e7 : arrowLit.length = 3 := by decide
  simp [List.length_append, e1, e2, e3, e4, e5, e6, e7]
  omega

lemma beginMarkerLine_ne_endMarker (h c b r t : Str) :
    beginMarkerLine h c b r t ≠ endMarkerStr := by
  intro he
  have hlen := congrArg List.length he
  rw [beginMarkerLine_length, show endMarkerStr.length = 20 from by decide] at hlen
  omega

lemma langMarkerLine_length (l : Str) :
    (langMarkerLine l).length = l.length + 24 := by
  unfold langMarkerLine
  have e1 : langPrefixLit.length = 20 := by decide
  have e2 : arrowLit.length = 3 := by decide
  simp [List.length_append, e1, e2]
  omega

lemma langMarkerLine_ne_endMarker (l : Str) :
    langMarkerLine l ≠ endMarkerStr := by
  intro he
  have hlen := congrArg List.length he
  rw [langMarkerLine_length, show endMarkerStr.length = 20 from by decide] at hlen
  omega

lemma langSnippetMatch_beginMarker (h c b r t : Str) :
    langSnippetMatch (beginMarkerLine h c b r t) = none := by
  unfold langSnippetMatch beginMarkerLine
  simp only [List.append_assoc, List.cons_append]
  rw [consumeLit_append_none₁ langPrefixLit beginSnipLit _ (by decide) (by decide)]
  rfl

lemma mapMetaLine_endMarker (i : Nat) :
    mapMetaLine ⟨endMarkerStr, i⟩ = some (.mlEnd i) := by
  simp [mapMetaLine]

lemma mapMetaLine_langMarker (l : Str) (hl : langTok l) (i : Nat) :
    mapMetaLine ⟨langMarkerLine l, i⟩ = some (.mlLang i l) := by
  unfold mapMetaLine
  rw [if_neg (by exact langMarkerLine_ne_endMarker l)]
  have hmatch : langSnippetMatch (langMarkerLine l) = some l := by
    have h := langSnippetMatch_marker l [] hl
    simpa using h
  rw [hmatch]

lemma mapMetaLine_beginMarker (h c b r t : Str) (hh : triStr h) (hc : triStr c)
    (hb : triStr b) (hr : triStr r) (ht : triStr t) (i : Nat) :
    mapMetaLine ⟨beginMarkerLine h c b r t, i⟩ =
      some (.mlBegin i h c b r t) := by
  unfold mapMetaLine
  rw [if_neg (by exact beginMarkerLine_ne_endMarker h c b r t)]
  rw [langSnippetMatch_beginMarker]
  have hmatch : startSnippetMatch (beginMarkerLine h c b r t) =
      some (h, c, b, r, t) := by
    have hx := startSnippetMatch_beginMarker h c b r t [] hh hc hb hr ht
    simpa using hx
  rw [hmatch]
  show (if h ≠ [] ∧ c ≠ [] ∧ b ≠ [] ∧ r ≠ [] ∧ t ≠ [] then
      some (MetaLine.mlBegin i (jsOrNull h) (jsOrNull c) (jsOrNull b)
        (jsOrNull r) (jsOrNull t))
    else none) = some (MetaLine.mlBegin i h c b r t)
  rw [if_pos ⟨triStr_ne_nil h hh, triStr_ne_nil c hc, triStr_ne_nil b hb,
    triStr_ne_nil r hr, triStr_ne_nil t ht⟩]
  rw [jsOrNull_of_triStr h hh, jsOrNull_of_triStr c hc, jsOrNull_of_triStr b hb,
    jsOrNull_of_triStr r hr, jsOrNull_of_triStr t ht]

/-! ## Lemmas about the validation scan -/

lemma validateGo_cons (acc : ValidationResult) (m : MetaLine)
    (rest : List MetaLine) :
    validateGo acc (m :: rest) =
      match valStep acc m with
      | .halt r => r
      | .cont acc' => validateGo acc' rest := by
  cases m <;> simp only [validateGo, valStep] <;> (repeat' split) <;> simp_all

lemma scanExhausts_cons (acc : ValidationResult) (m : MetaLine)
    (rest : List MetaLine) :
    scanExhausts acc (m :: rest) =
      match valStep acc m with
      | .halt _ => false
      | .cont acc' => scanExhausts acc' rest := by
  cases m <;> simp only [scanExhausts, valStep] <;> (repeat' split) <;> simp_all

lemma valStep_cont_fields (acc : ValidationResult) (m : MetaLine)
    (acc' : ValidationResult) (h : valStep acc m = .cont acc') :
    acc'.valid = acc.valid ∧ acc'.reason = acc.reason := by
  cases m <;> simp only [valStep] at h <;> (repeat' split at h) <;>
    first
      | (injection h with h; subst h; exact ⟨rfl, rfl⟩)
      | injection h

/-- The scan over a concatenation: if the first part exhausts, the scan
carries its accumulator into the second part; otherwise the second part
is never examined. -/
lemma validateGo_append_eq (ms : List MetaLine) (acc : ValidationResult)
    (rest : List MetaLine) :
    validateGo acc (ms ++ rest) =
      if scanExhausts acc ms then validateGo (validateGo acc ms) rest
      else validateGo acc ms := by
  induction ms generalizing acc with
  | nil => simp [validateGo, scanExhausts]
  | cons m ms ih =>
    rw [List.cons_append, validateGo_cons, validateGo_cons acc m ms,
      scanExhausts_cons]
    cases hstep : valStep acc m with
    | halt r => simp
    | cont acc' => simpa using ih acc'

/-- If the scan exhausts, the validity flag and the reason are those the
accumulator already carried. -/
lemma validateGo_exhausts (ms : List MetaLine) (acc : ValidationResult)
    (h : scanExhausts acc ms = true) :
    (validateGo acc ms).valid = acc.valid ∧
    (validateGo acc ms).reason = acc.reason := by
  induction ms generalizing acc with
  | nil => simp [validateGo]
  | cons m ms ih =>
    rw [scanExhausts_cons] at h
    rw [validateGo_cons]
    cases hstep : valStep acc m with
    | halt r => rw [hstep] at h; simp at h
    | cont acc' =>
      rw [hstep] at h
      simp only at h
      obtain ⟨h1, h2⟩ := valStep_cont_fields acc m acc' hstep
      obtain ⟨g1, g2⟩ := ih acc' h
      exact ⟨g1.trans h1, g2.trans h2⟩

lemma validateGo_langs_end (bs : List EnvBlock) (off eIdx : Nat)
    (acc : ValidationResult)
    (hbegin : acc.beginIndex.isSome = true) (hend : acc.endIndex = none)
    (hlangs : ∀ b ∈ bs, langTok b.language ∧ accLangField acc b.language = none)
    (hdist : (bs.map EnvBlock.language).Pairwise (· ≠ ·)) :
    (validateGo acc (langMetas bs off ++ [MetaLine.mlEnd eIdx])).valid = true := by
  induction bs generalizing off acc with
  | nil =>
    rw [langMetas, List.nil_append, validateGo_cons]
    have hstep : valStep acc (.mlEnd eIdx) =
        .halt (finishValid { acc with endIndex := some eIdx }) := by
      simp only [valStep]
      rw [if_neg (by rw [hend]; simp [truthy])]
      rw [if_pos (by simp [completeCheck, hbegin])]
    rw [hstep]
    simp [finishValid]
  | cons b bs ih =>
    rw [langMetas, List.cons_append, validateGo_cons]
    obtain ⟨htok, hfield⟩ := hlangs b (by simp)
    have hdist' : (∀ a ∈ bs, ¬ b.language = a.language) ∧
        (List.map EnvBlock.language bs).Pairwise (fun x1 x2 => ¬ x1 = x2) := by
      simpa using hdist
    have hconsump : ∀ acc2 : ValidationResult,
        acc2.beginIndex = acc.beginIndex → acc2.endIndex = acc.endIndex →
        (∀ b2 ∈ bs, accLangField acc2 b2.language =
          accLangField acc b2.language) →
        (validateGo acc2 (langMetas bs (off + blockLen b) ++
          [MetaLine.mlEnd eIdx])).valid = true := by
      intro acc2 e1 e2 e3
      apply ih _ acc2 (by rw [e1]; exact hbegin) (by rw [e2]; exact hend)
      · intro b2 hb2
        obtain ⟨ht2, hf2⟩ := hlangs b2 (by simp [hb2])
        exact ⟨ht2, (e3 b2 hb2).trans hf2⟩
      · exact hdist'.2
    have hne : ∀ b2 ∈ bs, b2.language ≠ b.language := by
      intro b2 hb2 he
      exact hdist'.1 b2 hb2 he.symm
    rcases htok with hl | hl | hl
    · -- js
      have hstep : valStep acc (.mlLang off b.language) =
          .cont { acc with jsIndex := some off } := by
        simp only [valStep]
        rw [if_pos hl]
        rw [if_neg (by
          have : acc.jsIndex = none := by
            have := hfield; rw [accLangField, if_pos hl] at this; exact this
          rw [this]; simp [truthy])]
        rw [if_neg (by simp [completeCheck, hend])]
      rw [hstep]
      apply hconsump <;> try rfl
      intro b2 hb2
      rw [accLangField, accLangField]
      by_cases h2 : b2.language = lit "js"
      · exact absurd (h2.trans hl.symm) (hne b2 hb2)
      · rw [if_neg h2, if_neg h2]
    · -- css
      have hstep : valStep acc (.mlLang off b.language) =
          .cont { acc with cssIndex := some off } := by
        simp only [valStep]
        rw [if_neg (by rw [hl]; decide)]
        rw [if_neg (by rw [hl]; decide)]
        rw [if_pos hl]
        rw [if_neg (by
          have : acc.cssIndex = none := by
            have hx := hfield
            rw [accLangField, if_neg (by rw [hl]; decide),
              if_neg (by rw [hl]; decide), if_pos hl] at hx
            exact hx
          rw [this]; simp [truthy])]
        rw [if_neg (by simp [completeCheck, hend])]
      rw [hstep]
      apply hconsump <;> try rfl
      intro b2 hb2
      rw [accLangField, accLangField]
      by_cases h2 : b2.language = lit "js"
      · rw [if_pos h2, if_pos h2]
      · rw [if_neg h2, if_neg h2]
        by_cases h3 : b2.language = lit "html"
        · rw [if_pos h3, if_pos h3]
        · rw [if_neg h3, if_neg h3]
          by_cases h4 : b2.language = lit "css"
          · exact absurd (h4.trans hl.symm) (hne b2 hb2)
          · rw [if_neg h4, if_neg h4]
    · -- html
      have hstep : valStep acc (.mlLang off b.language) =
          .cont { acc with htmlIndex := some off } := by
        simp only [valStep]
        rw [if_neg (by rw [hl]; decide)]
        rw [if_pos hl]
        rw [if_neg (by
          have : acc.htmlIndex = none := by
            have hx := hfield
            rw [accLangField, if_neg (by rw [hl]; decide), if_pos hl] at hx
            exact hx
          rw [this]; simp [truthy])]
        rw [if_neg (by simp [completeCheck, hend])]
      rw [hstep]
      apply hconsump <;> try rfl
      intro b2 hb2
      rw [accLangField, accLangField]
      by_cases h2 : b2.language = lit "js"
      · rw [if_pos h2, if_pos h2]
      · rw [if_neg h2, if_neg h2]
        by_cases h3 : b2.language = lit "html"
        · exact absurd (h3.trans hl.symm) (hne b2 hb2)
        · rw [if_neg h3, if_neg h3]

/-- Validation succeeds on the meta-line sequence of a rendered envelope:
one Begin first, distinct languages, one End last. -/
lemma validate_envelope (bs : List EnvBlock) (h c b r t : Str) (eIdx : Nat)
    (hlangs : ∀ b2 ∈ bs, langTok b2.language)
    (hdist : (bs.map EnvBlock.language).Pairwise (· ≠ ·)) :
    (validateMetaLines (MetaLine.mlBegin 0 h c b r t ::
      (langMetas bs 2 ++ [MetaLine.mlEnd eIdx]))).valid = true := by
  unfold validateMetaLines
  rw [validateGo_cons]
  have hstep : valStep initialValidation (.mlBegin 0 h c b r t) =
      .cont { initialValidation with beginIndex := some 0 } := by
    simp only [valStep]
    rw [if_neg (by simp [initialValidation, truthy])]
    rw [if_neg (by simp [completeCheck, initialValidation])]
  rw [hstep]
  apply validateGo_langs_end
  · rfl
  · rfl
  · intro b2 hb2
    refine ⟨hlangs b2 hb2, ?_⟩
    rw [accLangField]
    repeat' split
    all_goals rfl
  · exact hdist

/-! ## The sort is the identity on already-sorted meta lines -/

lemma insertByIdx_append (x : MetaLine) (acc : List MetaLine)
    (h : ∀ a ∈ acc, a.index ≤ x.index) : insertByIdx x acc = acc ++ [x] := by
  induction acc with
  | nil => rfl
  | cons a acc ih =>
    rw [insertByIdx, if_pos (h a (by simp))]
    rw [ih (fun a2 ha2 => h a2 (by simp [ha2]))]
    simp

lemma sortGo_of_sorted (ms acc : List MetaLine)
    (h1 : ∀ a ∈ acc, ∀ m ∈ ms, a.index ≤ m.index)
    (h2 : ms.Pairwise (fun a b => a.index ≤ b.index)) :
    sortGo acc ms = acc ++ ms := by
  induction ms generalizing acc with
  | nil => simp [sortGo]
  | cons x ms ih =>
    rw [sortGo]
    rw [insertByIdx_append x acc (fun a ha => h1 a ha x (by simp))]
    rw [ih (acc ++ [x]) ?ha ((List.pairwise_cons.mp h2).2)]
    · simp
    case ha =>
      intro a ha m hm
      rcases List.mem_append.mp ha with h | h
      · exact h1 a h m (by simp [hm])
      · rw [List.mem_singleton.mp h]
        exact (List.pairwise_cons.mp h2).1 m hm

lemma sortByIdx_of_sorted (ms : List MetaLine)
    (h : ms.Pairwise (fun a b => a.index ≤ b.index)) : sortByIdx ms = ms := by
  unfold sortByIdx
  rw [sortGo_of_sorted ms [] (by simp) h]
  simp

/-! ## Lemmas about splitNl and joinNl -/

lemma splitNl_ne_nil (s : Str) : splitNl s ≠ [] := by
  induction s with
  | nil => simp [splitNl]
  | cons c r ih =>
    by_cases h : c = '\n'
    · simp [splitNl, h]
    · simp only [splitNl, if_neg h]
      cases hs : splitNl r with
      | nil => simp
      | cons a as => simp

lemma joinNl_cons (x : Str) (ys : List Str) (h : ys ≠ []) :
    joinNl (x :: ys) = x ++ '\n' :: joinNl ys := by
  cases ys with
  | nil => exact absurd rfl h
  | cons y ys => rfl

lemma splitNl_single (l : Str) (h : noNl l) : splitNl l = [l] := by
  induction l with
  | nil => rfl
  | cons c r ih =>
    have hc : ¬ c = '\n' := fun he => h (by simp [he])
    have hr : splitNl r = [r] := ih (fun hm => h (by simp [hm]))
    simp only [splitNl, if_neg hc, hr]

lemma splitNl_cons_not_nl (c : Char) (r : Str) (h : ¬ c = '\n') :
    splitNl (c :: r) = (c :: (splitNl r).headI) :: (splitNl r).tail := by
  simp only [splitNl, if_neg h]
  cases hs : splitNl r with
  | nil => exact absurd hs (splitNl_ne_nil r)
  | cons a as => simp

lemma splitNl_append_nl (a b : Str) (h : noNl a) :
    splitNl (a ++ '\n' :: b) = a :: splitNl b := by
  induction a with
  | nil => simp [splitNl]
  | cons c r ih =>
    have hc : ¬ c = '\n' := fun he => h (by simp [he])
    have hr := ih (fun hm => h (by simp [hm]))
    rw [List.cons_append, splitNl_cons_not_nl c _ hc, hr]
    simp

lemma splitNl_joinNl (ls : List Str) (hne : ls ≠ []) (h : ∀ l ∈ ls, noNl l) :
    splitNl (joinNl ls) = ls := by
  induction ls with
  | nil => exact absurd rfl hne
  | cons l ls ih =>
    cases ls with
    | nil => exact splitNl_single l (h l (by simp))
    | cons y ys =>
      rw [joinNl_cons l (y :: ys) (by simp)]
      rw [splitNl_append_nl _ _ (h l (by simp))]
      rw [ih (by simp) (fun l2 hl2 => h l2 (by simp [hl2]))]

lemma joinNl_splitNl (s : Str) : joinNl (splitNl s) = s := by
  induction s with
  | nil => rfl
  | cons c r ih =>
    by_cases hc : c = '\n'
    · subst hc
      rw [show splitNl ('\n' :: r) = [] :: splitNl r from by simp [splitNl]]
      rw [joinNl_cons [] (splitNl r) (splitNl_ne_nil r), ih]
      rfl
    · obtain ⟨hd, tl, hs⟩ : ∃ hd tl, splitNl r = hd :: tl := by
        cases hx : splitNl r with
        | nil => exact absurd hx (splitNl_ne_nil r)
        | cons a as => exact ⟨a, as, rfl⟩
      rw [show splitNl (c :: r) = (c :: hd) :: tl from by
        simp only [splitNl, if_neg hc, hs]]
      cases tl with
      | nil =>
        rw [joinNl]
        rw [hs, joinNl] at ih
        rw [ih]
      | cons t ts =>
        rw [joinNl_cons _ _ (by simp)]
        rw [hs, joinNl_cons _ _ (by simp)] at ih
        rw [List.cons_append, ih]

lemma splitNl_noNl (s : Str) : ∀ l ∈ splitNl s, noNl l := by
  induction s with
  | nil => intro l hl; simp [splitNl] at hl; simp [hl, noNl]
  | cons c r ih =>
    intro l hl
    by_cases hc : c = '\n'
    · rw [show splitNl (c :: r) = [] :: splitNl r from by simp [splitNl, hc]] at hl
      rcases List.mem_cons.mp hl with h | h
      · simp [h, noNl]
      · exact ih l h
    · obtain ⟨hd, tl, hs⟩ : ∃ hd tl, splitNl r = hd :: tl := by
        cases hx : splitNl r with
        | nil => exact absurd hx (splitNl_ne_nil r)
        | cons a as => exact ⟨a, as, rfl⟩
      rw [show splitNl (c :: r) = (c :: hd) :: tl from by
        simp only [splitNl, if_neg hc, hs]] at hl
      rcases List.mem_cons.mp hl with h | h
      · subst h
        have hhd : noNl hd := ih hd (by simp [hs])
        exact noNl_cons c hd (fun he => hc he.symm) hhd
      · exact ih l (by simp [hs, h])

/-! ## Lemmas about the getLines de-indentation -/

lemma stripGo_stop (x : Str) (i : Nat) : stripGo x i i = (x, i) := by
  cases x with
  | nil => rfl
  | cons c r => simp [stripGo]

lemma stripIndent_pad (x : Str) : stripIndent 4 (padLine x) = x := by
  unfold padLine
  split
  · next hx => subst hx; rfl
  · next hx =>
    unfold stripIndent
    rw [show lit "    " ++ x = ' ' :: ' ' :: ' ' :: ' ' :: x from by
      rw [show lit "    " = [' ', ' ', ' ', ' '] from by decide]; rfl]
    rw [show stripGo (' ' :: ' ' :: ' ' :: ' ' :: x) 4 0 = stripGo x 4 4 from by
      simp [stripGo]]
    rw [stripGo_stop]
    simp

lemma stripGo_fst_mem (l : Str) (i a : Nat) (c : Char)
    (h : c ∈ (stripGo l i a).1) : c ∈ l := by
  induction l generalizing a with
  | nil => simp [stripGo] at h
  | cons d r ih =>
    rw [stripGo] at h
    split at h
    · split at h
      · exact List.mem_cons_of_mem d (ih _ h)
      · split at h
        · exact List.mem_cons_of_mem d (ih _ h)
        · exact h
    · exact h

lemma noNl_stripIndent (indent : Nat) (l : Str) (h : noNl l) :
    noNl (stripIndent indent l) := by
  unfold stripIndent
  intro hmem
  split at hmem
  · rcases List.mem_append.mp hmem with hm | hm
    · exact absurd (List.eq_of_mem_replicate hm) (by decide)
    · exact h (stripGo_fst_mem _ _ _ _ hm)
  · exact h (stripGo_fst_mem _ _ _ _ hmem)

/-! ## Lemmas about the meta-line collection loop -/

lemma collectMeta_append (xs ys : List Str) (i : Nat) :
    collectMeta (xs ++ ys) i =
      collectMeta xs i ++ collectMeta ys (i + xs.length) := by
  induction xs generalizing i with
  | nil => simp [collectMeta]
  | cons l xs ih =>
    simp only [List.cons_append, collectMeta, List.append_eq]
    rw [ih (i + 1)]
    rw [show i + (l :: xs).length = i + 1 + xs.length from by
      simp [List.length_cons]; omega]
    simp [List.append_assoc]

lemma collectMeta_skip (l : Str) (rest : List Str) (i : Nat)
    (h : l.head? ≠ some '<') :
    collectMeta (l :: rest) i = collectMeta rest (i + 1) := by
  cases l with
  | nil => simp [collectMeta]
  | cons c x =>
    have hc : (c == '<') = false := by
      simp only [List.head?_cons, ne_eq, Option.some.injEq] at h
      exact beq_eq_false_iff_ne.mpr h
    simp [collectMeta, hc]

lemma collectMeta_nil_of_skips (ls : List Str) (i : Nat)
    (h : ∀ l ∈ ls, l.head? ≠ some '<') : collectMeta ls i = [] := by
  induction ls generalizing i with
  | nil => rfl
  | cons l ls ih =>
    rw [collectMeta_skip l ls i (h l (by simp))]
    exact ih _ (fun l2 hl2 => h l2 (by simp [hl2]))

lemma collectMeta_collect (l : Str) (rest : List Str) (i : Nat)
    (hhead : ∃ x, l = '<' :: x) (hvalid : validSnippetTest l = true) :
    collectMeta (l :: rest) i = ⟨l, i⟩ :: collectMeta rest (i + 1) := by
  obtain ⟨x, rfl⟩ := hhead
  simp [collectMeta, hvalid]

lemma beginMarkerLine_head (h c b r t : Str) :
    ∃ x, beginMarkerLine h c b r t = '<' :: x := by
  simp only [beginMarkerLine, beginSnipLit, List.cons_append, List.append_assoc]
  exact ⟨_, rfl⟩

lemma langMarkerLine_head (l : Str) : ∃ x, langMarkerLine l = '<' :: x := by
  simp only [langMarkerLine, langPrefixLit, List.cons_append, List.append_assoc]
  exact ⟨_, rfl⟩

lemma renderBlock_length (b : EnvBlock) : (renderBlock b).length = blockLen b := by
  simp [renderBlock, blockLen, List.length_append]

lemma collectMeta_renderBlock (b : EnvBlock) (off : Nat)
    (htok : langTok b.language)
    (hcontent : ∀ l ∈ b.srcLines, contentLineOk l) :
    collectMeta (renderBlock b) off =
      [⟨langMarkerLine b.language, off⟩] := by
  unfold renderBlock
  simp only [List.cons_append]
  rw [collectMeta_collect _ _ _ (langMarkerLine_head b.language)
    (validSnippetTest_langMarker _ htok)]
  rw [collectMeta_skip [] _ _ (by simp)]
  rw [collectMeta_nil_of_skips _ _ ?hskips]
  case hskips =>
    intro l hl
    rcases List.mem_append.mp hl with hm | hm
    · exact (hcontent l hm).2
    · rw [List.mem_singleton.mp hm]; simp

/-- Collection and classification over the rendered blocks followed by
the end marker. -/
lemma metas_renderBlocks (bs : List EnvBlock) (off : Nat)
    (hwf : ∀ b ∈ bs, langTok b.language ∧ ∀ l ∈ b.srcLines, contentLineOk l) :
    (collectMeta (renderBlocks bs ++ [endMarkerStr]) off).filterMap mapMetaLine =
      langMetas bs off ++ [MetaLine.mlEnd (off + lenBlocks bs)] := by
  induction bs generalizing off with
  | nil =>
    rw [renderBlocks, List.nil_append]
    rw [collectMeta_collect endMarkerStr [] off ⟨_, rfl⟩ validSnippetTest_endMarker]
    rw [show collectMeta ([] : List Str) (off + 1) = [] from rfl]
    simp [mapMetaLine_endMarker, langMetas, lenBlocks]
  | cons b bs ih =>
    rw [renderBlocks, List.append_assoc, collectMeta_append]
    obtain ⟨htok, hcontent⟩ := hwf b (by simp)
    rw [collectMeta_renderBlock b off htok hcontent, renderBlock_length]
    rw [List.filterMap_append]
    rw [ih (off + blockLen b) (fun b2 hb2 => hwf b2 (by simp [hb2]))]
    rw [show List.filterMap mapMetaLine [⟨langMarkerLine b.language, off⟩] =
        [MetaLine.mlLang off b.language] from by
      simp [List.filterMap_cons, mapMetaLine_langMarker _ htok]]
    rw [langMetas, lenBlocks]
    rw [show off + (blockLen b + lenBlocks bs) = off + blockLen b + lenBlocks bs
      from by omega]
    simp

/-- The classified meta lines of a whole rendered envelope. -/
lemma metas_renderEnvelope (e : Envelope) (hwf : e.WF) :
    (collectMeta (renderEnvelope e) 0).filterMap mapMetaLine =
      MetaLine.mlBegin 0 e.hide e.console e.babel e.babelPresetReact
        e.babelPresetTS ::
      (langMetas e.blocks 2 ++ [MetaLine.mlEnd (2 + lenBlocks e.blocks)]) := by
  obtain ⟨h1, h2, h3, h4, h5, h6, h7⟩ := hwf
  unfold renderEnvelope
  simp only [List.cons_append]
  rw [collectMeta_collect _ _ _ (beginMarkerLine_head _ _ _ _ _)
    (validSnippetTest_beginMarker _ _ _ _ _ h1 h2 h3 h4 h5)]
  rw [collectMeta_skip [] _ _ (by simp)]
  rw [show (0 : Nat) + 1 + 1 = 2 from rfl]
  rw [List.filterMap_cons]
  rw [mapMetaLine_beginMarker _ _ _ _ _ h1 h2 h3 h4 h5]
  rw [metas_renderBlocks e.blocks 2 h6]

/-! ## getLines over a rendered envelope -/

lemma sliceL_middle (pre mid suf : List Str) :
    sliceL (pre ++ mid ++ suf) pre.length (pre.length + mid.length) = mid := by
  unfold sliceL
  rw [show pre ++ mid ++ suf = (pre ++ mid) ++ suf from by simp [List.append_assoc]]
  rw [List.take_append_of_le_length (by simp [List.length_append])]
  rw [show (pre ++ mid).take (pre.length + mid.length) = pre ++ mid from by
    rw [← List.length_append]; exact List.take_length _ ]
  exact List.drop_left pre mid

lemma getLines_block (pre src suf : List Str) :
    getLinesModel (pre ++ src ++ suf) pre.length (pre.length + src.length) 4 =
      joinNl (src.map (stripIndent 4)) := by
  unfold getLinesModel
  by_cases hk : src.length = 0
  · rw [if_pos (by omega)]
    rw [List.eq_nil_of_length_eq_zero hk]
    rfl
  · rw [if_neg (by omega)]
    rw [sliceL_middle]

lemma langTokens_renderBlocks (bs : List EnvBlock) (preLines : List Str) :
    langTokens (preLines ++ (renderBlocks bs ++ [endMarkerStr]))
        (langMetas bs preLines.length)
        (preLines.length + lenBlocks bs) =
      expectedToks bs preLines.length := by
  induction bs generalizing preLines with
  | nil => rfl
  | cons b bs ih =>
    rw [langMetas]
    simp only [langTokens, expectedToks]
    have hEnd : (match langMetas bs (preLines.length + blockLen b) with
        | [] => preLines.length + lenBlocks (b :: bs)
        | m2 :: _ => m2.index) = preLines.length + blockLen b := by
      cases bs with
      | nil => simp [langMetas, lenBlocks]
      | cons b2 rest => simp [langMetas, MetaLine.index]
    rw [hEnd]
    congr 1
    · simp only [MetaLine.index, MetaLine.langName]
      have harith : preLines.length + blockLen b - 1 =
          preLines.length + 2 + b.srcLines.length := by
        unfold blockLen; omega
      rw [harith]
      have hlines : preLines ++ (renderBlocks (b :: bs) ++ [endMarkerStr]) =
          (preLines ++ [langMarkerLine b.language, []]) ++ b.srcLines ++
            ([[]] ++ (renderBlocks bs ++ [endMarkerStr])) := by
        rw [renderBlocks, renderBlock]
        simp [List.append_assoc, List.cons_append]
      rw [hlines]
      rw [show preLines.length + 2 =
          (preLines ++ [langMarkerLine b.language, []]).length from by
        simp [List.length_append]]
      rw [getLines_block]
    · have hlines2 : preLines ++ (renderBlocks (b :: bs) ++ [endMarkerStr]) =
          (preLines ++ renderBlock b) ++ (renderBlocks bs ++ [endMarkerStr]) := by
        rw [renderBlocks]
        simp [List.append_assoc]
      rw [hlines2]
      rw [show preLines.length + lenBlocks (b :: bs) =
          (preLines ++ renderBlock b).length + lenBlocks bs from by
        simp [List.length_append, renderBlock_length, lenBlocks]; omega]
      rw [show preLines.length + blockLen b =
          (preLines ++ renderBlock b).length from by
        simp [List.length_append, renderBlock_length]]
      exact ih (preLines ++ renderBlock b)

/-! ## Recognition of a rendered envelope -/

lemma sCountOf_lt (c : Char) (x : Str) (h1 : ¬ c = ' ') (h2 : ¬ c = '\t') :
    sCountOf (c :: x) = 0 := by
  unfold sCountOf
  rw [sCountGo, if_neg h1, if_neg h2]

lemma tShiftOf_head (c : Char) (x : Str) (h : ¬ (c = ' ' ∨ c = '\t')) :
    tShiftOf (c :: x) = 0 := by
  rw [tShiftOf, if_neg h]

lemma sliceL_all (ls : List Str) : sliceL ls 0 ls.length = ls := by
  unfold sliceL
  simp [List.take_length]

lemma langMetas_index_ge (bs : List EnvBlock) (off : Nat) :
    ∀ m ∈ langMetas bs off, off ≤ m.index := by
  induction bs generalizing off with
  | nil => simp [langMetas]
  | cons b bs ih =>
    intro m hm
    rw [langMetas] at hm
    rcases List.mem_cons.mp hm with h | h
    · rw [h]; simp [MetaLine.index]
    · have := ih (off + blockLen b) m h
      omega

lemma langMetas_sorted (bs : List EnvBlock) (off : Nat) :
    (langMetas bs off).Pairwise (fun a b => a.index ≤ b.index) := by
  induction bs generalizing off with
  | nil => simp [langMetas]
  | cons b bs ih =>
    rw [langMetas, List.pairwise_cons]
    refine ⟨?_, ih (off + blockLen b)⟩
    intro m hm
    have := langMetas_index_ge bs (off + blockLen b) m hm
    show off ≤ m.index
    omega

lemma langMetas_isLang (bs : List EnvBlock) (off : Nat) :
    ∀ m ∈ langMetas bs off, m.isLang = true := by
  induction bs generalizing off with
  | nil => simp [langMetas]
  | cons b bs ih =>
    intro m hm
    rw [langMetas] at hm
    rcases List.mem_cons.mp hm with h | h
    · rw [h]; rfl
    · exact ih (off + blockLen b) m h

lemma langMetas_filter (bs : List EnvBlock) (off : Nat) :
    (langMetas bs off).filter MetaLine.isLang = langMetas bs off :=
  List.filter_eq_self.mpr (langMetas_isLang bs off)

lemma renderEnvelope_split (e : Envelope) :
    renderEnvelope e =
      [beginMarkerLine e.hide e.console e.babel e.babelPresetReact
        e.babelPresetTS, []] ++ (renderBlocks e.blocks ++ [endMarkerStr]) := by
  unfold renderEnvelope
  simp [List.cons_append, List.append_assoc]

/-- Committing recognition of a rendered well-formed envelope: the rule
matches, pushes exactly the expected tokens and advances the cursor one
line past the end marker. -/
lemma parseSnippetBlock_envelope (e : Envelope) (hwf : e.WF) :
    parseSnippetBlock { lines := renderEnvelope e } 0
        (renderEnvelope e).length false =
      (true,
        { lines := renderEnvelope e,
          tokens := mkOpenToken e.hide e.console e.babel e.babelPresetReact
              e.babelPresetTS :: (expectedToks e.blocks 2 ++ [closeToken]),
          line := 2 + lenBlocks e.blocks + 1 }) := by
  obtain ⟨hw1, hw2, hw3, hw4, hw5, hw6, hw7⟩ := hwf
  obtain ⟨bx, hbx⟩ := beginMarkerLine_head e.hide e.console e.babel
    e.babelPresetReact e.babelPresetTS
  have hline0 : lineAt (renderEnvelope e) 0 =
      beginMarkerLine e.hide e.console e.babel e.babelPresetReact
        e.babelPresetTS := by
    rw [renderEnvelope_split]
    rfl
  have hsc : sCountOf (lineAt (renderEnvelope e) 0) = 0 := by
    rw [hline0, hbx]
    exact sCountOf_lt _ _ (by decide) (by decide)
  have hts : tShiftOf (lineAt (renderEnvelope e) 0) = 0 := by
    rw [hline0, hbx]
    exact tShiftOf_head _ _ (by decide)
  have hvt : validSnippetTest (lineAt (renderEnvelope e) 0) = true := by
    rw [hline0]
    exact validSnippetTest_beginMarker _ _ _ _ _ hw1 hw2 hw3 hw4 hw5
  have hmetas : (collectMeta
        (sliceL (renderEnvelope e) 0 (renderEnvelope e).length) 0).filterMap
        mapMetaLine =
      MetaLine.mlBegin 0 e.hide e.console e.babel e.babelPresetReact
        e.babelPresetTS ::
      (langMetas e.blocks 2 ++ [MetaLine.mlEnd (2 + lenBlocks e.blocks)]) := by
    rw [sliceL_all]
    exact metas_renderEnvelope e ⟨hw1, hw2, hw3, hw4, hw5, hw6, hw7⟩
  have hvalid : (validateMetaLines
      (MetaLine.mlBegin 0 e.hide e.console e.babel e.babelPresetReact
        e.babelPresetTS ::
      (langMetas e.blocks 2 ++
        [MetaLine.mlEnd (2 + lenBlocks e.blocks)]))).valid = true :=
    validate_envelope e.blocks _ _ _ _ _ _ (fun b2 hb2 => (hw6 b2 hb2).1) hw7
  unfold parseSnippetBlock
  dsimp only
  rw [hsc]
  rw [if_neg (by norm_num)]
  rw [hts]
  rw [if_neg (by norm_num)]
  rw [hvt]
  rw [if_neg (by norm_num)]
  rw [hmetas]
  rw [hvalid]
  rw [show (false || !true) = false from rfl]
  rw [if_neg (by norm_num)]
  dsimp only
  rw [List.getLast?_concat]
  dsimp only
  rw [List.dropLast_concat]
  rw [langMetas_filter]
  rw [sortByIdx_of_sorted _ (langMetas_sorted e.blocks 2)]
  rw [show (langMetas e.blocks 2).all MetaLine.isLang = true from
    List.all_eq_true.mpr (langMetas_isLang e.blocks 2)]
  rw [if_neg (by norm_num)]
  have hlt : langTokens (renderEnvelope e) (langMetas e.blocks 2)
      (2 + lenBlocks e.blocks) = expectedToks e.blocks 2 := by
    rw [renderEnvelope_split]
    have h2 : (2 : Nat) = ([beginMarkerLine e.hide e.console e.babel
        e.babelPresetReact e.babelPresetTS, ([] : Str)] : List Str).length := rfl
    rw [h2]
    exact langTokens_renderBlocks e.blocks _
  rw [hlt]
  simp

lemma langsFromTokens_expected (bs : List EnvBlock) (off : Nat) :
    langsFromTokens (expectedToks bs off ++ [closeToken]) =
      some (bs.map fun b =>
        { language := b.language,
          content := joinNl (b.srcLines.map (stripIndent 4)) }) := by
  induction bs generalizing off with
  | nil => rfl
  | cons b bs ih =>
    simp only [expectedToks, List.cons_append]
    obtain ⟨y, ys, hys⟩ : ∃ y ys,
        expectedToks bs (off + blockLen b) ++ [closeToken] = y :: ys := by
      cases bs <;> simp [expectedToks, closeToken]
    rw [hys]
    rw [show langsFromTokens
        ({ type := "stack_snippet_lang", tag := "code", nesting := 1,
           attrs := [("language", b.language)],
           content := joinNl (b.srcLines.map (stripIndent 4)),
           map := some (off, off + blockLen b) } :: y :: ys) =
      (langsFromTokens (y :: ys)).map
        (fun ls => ⟨b.language, joinNl (b.srcLines.map (stripIndent 4))⟩ :: ls)
      from by
        rw [langsFromTokens]
        · rw [if_pos (by rfl)]
          simp [Token.attrGet]
        · simp]
    rw [← hys, ih (off + blockLen b)]
    rfl

/-- Committing parse of a rendered well-formed envelope produces exactly
the envelope's SnippetNode. -/
lemma parseDoc_envelope (e : Envelope) (hwf : e.WF) :
    parseDoc (renderEnvelope e) = some (nodeOfEnvelope e) := by
  unfold parseDoc
  rw [parseSnippetBlock_envelope e hwf]
  dsimp only
  rw [snippetFromTokens]
  rw [if_pos (by rfl)]
  rw [langsFromTokens_expected]
  simp only [Option.map_some']
  unfold nodeOfEnvelope
  simp [mkOpenToken, Token.attrGet]

/-! ## The serializer's output, line by line -/

lemma flatMapNl_cons (x : Str) (xs : List Str) :
    flatMapNl (x :: xs) = (x ++ ['\n']) ++ flatMapNl xs := by
  simp [flatMapNl]

lemma joinNl_append (xs ys : List Str) (hys : ys ≠ []) :
    joinNl (xs ++ ys) = flatMapNl xs ++ joinNl ys := by
  induction xs with
  | nil => simp [flatMapNl]
  | cons x xs ih =>
    rw [List.cons_append, joinNl_cons _ _ (by simp [hys]), ih]
    rw [flatMapNl_cons]
    simp [List.append_assoc]

lemma joinNl_block_decomp (m : Str) (padded rest : List Str)
    (hrest : rest ≠ []) :
    joinNl ((m :: [] :: (padded ++ [[]])) ++ rest) =
      m ++ '\n' :: '\n' :: (flatMapNl padded ++ '\n' :: joinNl rest) := by
  rw [List.cons_append, List.cons_append]
  rw [joinNl_cons _ _ (by simp)]
  rw [joinNl_cons _ _ (by simp)]
  rw [List.append_assoc]
  rw [joinNl_append _ _ (by simp)]
  rw [show ([([] : Str)] : List Str) ++ rest = [] :: rest from rfl]
  rw [joinNl_cons _ _ hrest]
  simp

lemma serializeBlocks_join (chs : List LangNode) :
    serializeBlocks chs ++ endMarkerStr =
      joinNl ((chs.flatMap (fun ch => langMarkerLine ch.language :: [] ::
        ((splitNl ch.content).map padLine ++ [[]]))) ++ [endMarkerStr]) := by
  induction chs with
  | nil => simp [serializeBlocks, joinNl]
  | cons ch chs ih =>
    have hrhs : joinNl (((langMarkerLine ch.language :: [] ::
        ((splitNl ch.content).map padLine ++ [[]])) ++
        chs.flatMap (fun ch2 => langMarkerLine ch2.language :: [] ::
          ((splitNl ch2.content).map padLine ++ [[]]))) ++ [endMarkerStr]) =
        langMarkerLine ch.language ++ '\n' :: '\n' ::
          (flatMapNl ((splitNl ch.content).map padLine) ++ '\n' ::
            (serializeBlocks chs ++ endMarkerStr)) := by
      rw [List.append_assoc]
      rw [joinNl_block_decomp _ _ _ (by simp)]
      rw [← ih]
    rw [List.flatMap_cons, hrhs, serializeBlocks]
    simp [List.append_assoc, List.cons_append]

/-- The serializer writes exactly the lines of `specSerializeLines`,
joined with newlines. -/
lemma serializeSnippet_joinNl (n : SnippetNode) :
    serializeSnippet n = joinNl (specSerializeLines n) := by
  unfold serializeSnippet specSerializeLines getSnippetMetadata
  dsimp only
  rw [joinNl_cons _ _ (by simp)]
  rw [joinNl_cons _ _ (by simp)]
  rw [← serializeBlocks_join]
  simp [List.append_assoc, List.cons_append]

lemma renderBlocks_map (chs : List LangNode) :
    renderBlocks (chs.map (fun ch =>
        ({ language := ch.language,
           srcLines := (splitNl ch.content).map padLine } : EnvBlock))) =
      chs.flatMap (fun ch => langMarkerLine ch.language :: [] ::
        ((splitNl ch.content).map padLine ++ [[]])) := by
  induction chs with
  | nil => rfl
  | cons ch chs ih =>
    simp only [List.map_cons, renderBlocks, List.flatMap_cons, ih]
    simp [renderBlock, List.cons_append, List.append_assoc]

lemma specSerializeLines_eq_render (n : SnippetNode) :
    specSerializeLines n = renderEnvelope (envOfNode n) := by
  unfold specSerializeLines renderEnvelope envOfNode
  dsimp only
  rw [renderBlocks_map]
  simp [List.cons_append, List.append_assoc]

/-! ## No-newline facts about the serialized lines -/

lemma noNl_beginMarkerLine (h c b r t : Str) (hh : noNl h) (hc : noNl c)
    (hb : noNl b) (hr : noNl r) (ht : noNl t) :
    noNl (beginMarkerLine h c b r t) := by
  rw [beginMarkerLine_split]
  refine noNl_append _ _ (by decide) (noNl_append _ _ ?_ (by decide))
  refine noNl_append _ _ (by decide) ?_
  refine noNl_append _ _ hh (noNl_cons _ _ (by decide) ?_)
  refine noNl_append _ _ (by decide) ?_
  refine noNl_append _ _ hc (noNl_cons _ _ (by decide) ?_)
  refine noNl_append _ _ (by decide) ?_
  refine noNl_append _ _ hb (noNl_cons _ _ (by decide) ?_)
  refine noNl_append _ _ (by decide) ?_
  refine noNl_append _ _ hr (noNl_cons _ _ (by decide) ?_)
  refine noNl_append _ _ (by decide) ?_
  exact noNl_append _ _ ht (by decide)

lemma noNl_langMarkerLine (l : Str) (hl : noNl l) : noNl (langMarkerLine l) := by
  unfold langMarkerLine
  exact noNl_append _ _ (noNl_append _ _ (by decide) hl)
    (noNl_cons _ _ (by decide) (by decide))

lemma noNl_padLine (l : Str) (hl : noNl l) : noNl (padLine l) := by
  unfold padLine
  split
  · exact hl
  · exact noNl_append _ _ (by decide) hl

lemma noNl_specSerializeLines (n : SnippetNode)
    (h1 : noNl (n.hide.getD (lit "null")))
    (h2 : noNl (n.console.getD (lit "null")))
    (h3 : noNl (n.babel.getD (lit "null")))
    (h4 : noNl (n.babelPresetReact.getD (lit "null")))
    (h5 : noNl (n.babelPresetTS.getD (lit "null")))
    (hch : ∀ ch ∈ n.children, noNl ch.language) :
    ∀ l ∈ specSerializeLines n, noNl l := by
  intro l hl
  unfold specSerializeLines at hl
  rcases List.mem_cons.mp hl with h | hl2
  · rw [h]; exact noNl_beginMarkerLine _ _ _ _ _ h1 h2 h3 h4 h5
  rcases List.mem_cons.mp hl2 with h | hl3
  · rw [h]; decide
  rcases List.mem_append.mp hl3 with hm | hm
  · obtain ⟨ch, hch2, hline⟩ := List.mem_flatMap.mp hm
    rcases List.mem_cons.mp hline with h | hline2
    · rw [h]; exact noNl_langMarkerLine _ (hch ch hch2)
    rcases List.mem_cons.mp hline2 with h | hline3
    · rw [h]; decide
    rcases List.mem_append.mp hline3 with hp | hp
    · obtain ⟨l2, hl2mem, hl2eq⟩ := List.mem_map.mp hp
      rw [← hl2eq]
      exact noNl_padLine l2 (splitNl_noNl ch.content l2 hl2mem)
    · rw [List.mem_singleton.mp hp]; decide
  · rw [List.mem_singleton.mp hm]; decide

/-! ## The node round trip -/

lemma envOfNode_child_roundtrip (ch : LangNode) :
    ({ language := ch.language,
       content := joinNl ((((splitNl ch.content).map padLine)).map
           (stripIndent 4)) } : LangNode) = ch := by
  have hmm : (((splitNl ch.content).map padLine)).map (stripIndent 4) =
      splitNl ch.content := by
    rw [List.map_map]
    rw [show (stripIndent 4 ∘ padLine) = id from funext stripIndent_pad]
    exact List.map_id _
  rw [hmm, joinNl_splitNl]

lemma nodeOf_envOfNode (n : SnippetNode)
    (e1 : n.hide.isSome = true) (e2 : n.console.isSome = true)
    (e3 : n.babel.isSome = true) (e4 : n.babelPresetReact.isSome = true)
    (e5 : n.babelPresetTS.isSome = true) :
    nodeOfEnvelope (envOfNode n) = n := by
  obtain ⟨vh, hvh⟩ := Option.isSome_iff_exists.mp e1
  obtain ⟨vc, hvc⟩ := Option.isSome_iff_exists.mp e2
  obtain ⟨vb, hvb⟩ := Option.isSome_iff_exists.mp e3
  obtain ⟨vr, hvr⟩ := Option.isSome_iff_exists.mp e4
  obtain ⟨vt, hvt⟩ := Option.isSome_iff_exists.mp e5
  unfold nodeOfEnvelope envOfNode
  dsimp only
  rw [hvh, hvc, hvb, hvr, hvt]
  simp only [Option.getD_some]
  rw [List.map_map]
  rw [show ((fun b : EnvBlock =>
      ({ language := b.language,
         content := joinNl (b.srcLines.map (stripIndent 4)) } : LangNode)) ∘
      (fun ch : LangNode =>
      ({ language := ch.language,
         srcLines := (splitNl ch.content).map padLine } : EnvBlock))) = id from
    funext fun ch => envOfNode_child_roundtrip ch]
  rw [List.map_id]
  rw [← hvh, ← hvc, ← hvb, ← hvr, ← hvt]

lemma envOfNode_WF (e : Envelope) (hwf : e.WF) :
    (envOfNode (nodeOfEnvelope e)).WF := by
  obtain ⟨h1, h2, h3, h4, h5, h6, h7⟩ := hwf
  unfold envOfNode nodeOfEnvelope Envelope.WF
  dsimp only
  simp only [Option.getD_some]
  refine ⟨h1, h2, h3, h4, h5, ?_, ?_⟩
  · intro b hb
    rw [List.map_map] at hb
    obtain ⟨b0, hb0, hbeq⟩ := List.mem_map.mp hb
    subst hbeq
    dsimp only [Function.comp]
    constructor
    · exact (h6 b0 hb0).1
    · intro l hl
      obtain ⟨l0, hl0, hleq⟩ := List.mem_map.mp hl
      subst hleq
      constructor
      · exact noNl_padLine l0 (splitNl_noNl _ l0 hl0)
      · unfold padLine
        split
        · next hx => rw [hx]; simp
        · rw [show lit "    " = [' ', ' ', ' ', ' '] from by decide]
          simp
  · rw [List.map_map, List.map_map]
    exact h7

/-- C7: for every SnippetNode the serializer emits exactly the begin
marker with the five fields in the fixed order hide, console, babel,
babelPresetReact, babelPresetTS using each attribute's value with "null"
substituted when absent, and for each child in document order its
language marker, a blank line, its content with every non-empty line
prefixed by exactly four spaces and empty lines unpadded, and a blank
line, followed by the end marker. -/
theorem C7_serializer_output_format (n : SnippetNode) :
    serializeSnippet n = joinNl (specSerializeLines n) :=
  serializeSnippet_joinNl n

/-- C1: for every valid envelope, parsing yields a SnippetNode, and
re-parsing the serialization of that node yields a node with the same
five tri-state attributes and the same per-language children, even
though the serialized byte string may differ from the original input. -/
theorem C1_semantic_round_trip (e : Envelope) (hwf : e.WF) :
    ∃ n n', parseDoc (renderEnvelope e) = some n ∧
      parseDoc (splitNl (serializeSnippet n)) = some n' ∧
      n'.hide = n.hide ∧ n'.console = n.console ∧ n'.babel = n.babel ∧
      n'.babelPresetReact = n.babelPresetReact ∧
      n'.babelPresetTS = n.babelPresetTS ∧ n'.children = n.children := by
  obtain ⟨h1, h2, h3, h4, h5, h6, h7⟩ := hwf
  refine ⟨nodeOfEnvelope e, nodeOfEnvelope e,
    parseDoc_envelope e ⟨h1, h2, h3, h4, h5, h6, h7⟩, ?_,
    rfl, rfl, rfl, rfl, rfl, rfl⟩
  rw [serializeSnippet_joinNl]
  rw [splitNl_joinNl _ (by simp [specSerializeLines]) ?hnn]
  case hnn =>
    apply noNl_specSerializeLines
    · exact triStr_noNl _ h1
    · exact triStr_noNl _ h2
    · exact triStr_noNl _ h3
    · exact triStr_noNl _ h4
    · exact triStr_noNl _ h5
    · intro ch hch
      unfold nodeOfEnvelope at hch
      dsimp only at hch
      obtain ⟨b0, hb0, hbeq⟩ := List.mem_map.mp hch
      subst hbeq
      exact langTok_noNl _ (h6 b0 hb0).1
  rw [specSerializeLines_eq_render]
  rw [parseDoc_envelope _ (envOfNode_WF e ⟨h1, h2, h3, h4, h5, h6, h7⟩)]
  rw [nodeOf_envOfNode (nodeOfEnvelope e) rfl rfl rfl rfl rfl]

/-- Witness for C1 at the concrete envelope of spec section 6. -/
theorem C1_witness :
    exampleEnvelope.WF ∧
    (∃ n n', parseDoc (renderEnvelope exampleEnvelope) = some n ∧
      parseDoc (splitNl (serializeSnippet n)) = some n' ∧
      n'.hide = n.hide ∧ n'.console = n.console ∧ n'.babel = n.babel ∧
      n'.babelPresetReact = n.babelPresetReact ∧
      n'.babelPresetTS = n.babelPresetTS ∧ n'.children = n.children) :=
  ⟨by decide, C1_semantic_round_trip exampleEnvelope (by decide)⟩

/-- The recognition rule either leaves the state untouched or reports a
match: every `return false` path precedes any mutation. -/
lemma parseSnippetBlock_untouched_or_true (st : StateBlock)
    (startLine endLine : Nat) (silent : Bool) :
    (parseSnippetBlock st startLine endLine silent).2 = st ∨
    (parseSnippetBlock st startLine endLine silent).1 = true := by
  unfold parseSnippetBlock
  dsimp only
  (repeat' split) <;> simp_all

/-- C3: invoking the recognition rule in trial (silent) mode never pushes
tokens and never moves the cursor: the state after the call is the state
before it, whatever the input span. -/
theorem C3_trial_mode_purity (st : StateBlock) (startLine endLine : Nat) :
    (parseSnippetBlock st startLine endLine true).2 = st := by
  unfold parseSnippetBlock
  dsimp only
  (repeat' split) <;> simp_all

/-- C10: in committing (non-silent) mode, whenever the rule returns false
— in particular on the post-validation aborts where the first collected
meta line is not a Begin or the last is not an End — it has pushed no
tokens and left the consumed-line cursor unchanged. -/
theorem C10_commit_abort_pure (st : StateBlock) (startLine endLine : Nat)
    (h : (parseSnippetBlock st startLine endLine false).1 = false) :
    (parseSnippetBlock st startLine endLine false).2 = st := by
  rcases parseSnippetBlock_untouched_or_true st startLine endLine false with
    h2 | h1
  · exact h2
  · rw [h] at h1
    exact absurd h1 (by simp)

/-- Witness for C10 at a one-line document the rule rejects. -/
theorem C10_witness :
    (parseSnippetBlock { lines := [lit "x"] } 0 1 false).1 = false ∧
    (parseSnippetBlock { lines := [lit "x"] } 0 1 false).2 =
      { lines := [lit "x"] } :=
  ⟨by decide, C10_commit_abort_pure { lines := [lit "x"] } 0 1 (by decide)⟩

/-- C2 (code bug): a duplicated Begin whose first occurrence sits at
source line index 0 is not rejected: the JavaScript truthiness test
`if (validationResult.beginIndex)` treats the stored index 0 as absent,
so the second Begin overwrites it and the sequence validates instead of
failing with "Duplicate Begin block". -/
theorem C2_duplicate_begin_at_zero_accepted :
    validateMetaLines
      [MetaLine.mlBegin 0 (lit "true") (lit "true") (lit "true") (lit "true")
        (lit "true"),
       MetaLine.mlBegin 1 (lit "true") (lit "true") (lit "true") (lit "true")
        (lit "true"),
       MetaLine.mlEnd 2] =
      { valid := true, beginIndex := some 1, endIndex := some 2,
        reason := none } ∧
    (validateMetaLines
      [MetaLine.mlBegin 0 (lit "true") (lit "true") (lit "true") (lit "true")
        (lit "true"),
       MetaLine.mlBegin 1 (lit "true") (lit "true") (lit "true") (lit "true")
        (lit "true"),
       MetaLine.mlEnd 2]).reason ≠ some "Duplicate Begin block" := by
  decide

/-- C5 counterexample: on a scan that exhausts without recording both a
begin and an end, the code's reason string is capitalized
("Did not discover beginning and end"), so the claim's quoted lowercase
reason does not match. -/
theorem C5_counterexample :
    (validateMetaLines []).valid = false ∧
    (validateMetaLines []).reason ≠ some "did not discover beginning and end" ∧
    (validateMetaLines []).reason = some "Did not discover beginning and end" := by
  decide

/-- C5 (amended): the validator declares a sequence valid as soon as one
begin and one end have been recorded without a prior duplicate — a
sequence starting with one Begin and one End validates whatever follows,
later meta lines are never examined once validation succeeded — and a
scan that exhausts without recording both fails with the reason
"Did not discover beginning and end" (capitalized as in the code). -/
theorem C5_early_success_and_exhaustion :
    (∀ (i j : Nat) (h c b r t : Str) (rest : List MetaLine),
      (validateMetaLines (MetaLine.mlBegin i h c b r t ::
        MetaLine.mlEnd j :: rest)).valid = true ∧
      validateMetaLines (MetaLine.mlBegin i h c b r t ::
        MetaLine.mlEnd j :: rest) =
        validateMetaLines [MetaLine.mlBegin i h c b r t, MetaLine.mlEnd j]) ∧
    (∀ ms rest : List MetaLine, (validateMetaLines ms).valid = true →
      validateMetaLines (ms ++ rest) = validateMetaLines ms) ∧
    (∀ ms : List MetaLine, scanExhausts initialValidation ms = true →
      (validateMetaLines ms).valid = false ∧
      (validateMetaLines ms).reason =
        some "Did not discover beginning and end") := by
  refine ⟨?_, ?_, ?_⟩
  · intro i j h c b r t rest
    have hcompute : ∀ rest2 : List MetaLine,
        validateMetaLines (MetaLine.mlBegin i h c b r t ::
          MetaLine.mlEnd j :: rest2) =
          finishValid
            { initialValidation with beginIndex := some i, endIndex := some j } := by
      intro rest2
      rw [validateMetaLines, validateGo_cons]
      have hstep : valStep initialValidation (.mlBegin i h c b r t) =
          .cont { initialValidation with beginIndex := some i } := by
        simp only [valStep]
        rw [if_neg (by simp [initialValidation, truthy])]
        rw [if_neg (by simp [completeCheck, initialValidation])]
      rw [hstep]
      dsimp only
      rw [validateGo_cons]
      have hstep2 : valStep { initialValidation with beginIndex := some i }
          (.mlEnd j) = .halt (finishValid
            { initialValidation with beginIndex := some i, endIndex := some j }) := by
        simp only [valStep]
        rw [if_neg (by simp [initialValidation, truthy])]
        rw [if_pos (by simp [completeCheck])]
      rw [hstep2]
    exact ⟨by rw [hcompute rest]; simp [finishValid],
      by rw [hcompute rest, hcompute []]⟩
  · intro ms rest hval
    rw [validateMetaLines] at hval ⊢
    rw [validateGo_append_eq]
    have hne : ¬ scanExhausts initialValidation ms = true := by
      intro hex
      obtain ⟨g1, _⟩ := validateGo_exhausts ms initialValidation hex
      rw [hval] at g1
      exact absurd g1.symm (by simp [initialValidation])
    rw [if_neg hne]
    rfl
  · intro ms hex
    obtain ⟨g1, g2⟩ := validateGo_exhausts ms initialValidation hex
    constructor
    · rw [validateMetaLines, g1]
      rfl
    · rw [validateMetaLines, g2]
      rfl

/-- Witness for C5 at concrete inputs: early success ignores a trailing
meta line, and the empty scan exhausts with the capitalized reason. -/
theorem C5_witness :
    validateMetaLines ([MetaLine.mlBegin 1 (lit "null") (lit "null")
        (lit "null") (lit "null") (lit "null"), MetaLine.mlEnd 2] ++
        [MetaLine.mlEnd 99]) =
      validateMetaLines [MetaLine.mlBegin 1 (lit "null") (lit "null")
        (lit "null") (lit "null") (lit "null"), MetaLine.mlEnd 2] ∧
    ((validateMetaLines [MetaLine.mlLang 7 (lit "js")]).valid = false ∧
      (validateMetaLines [MetaLine.mlLang 7 (lit "js")]).reason =
        some "Did not discover beginning and end") :=
  ⟨C5_early_success_and_exhaustion.2.1 _ _ (by decide),
   C5_early_success_and_exhaustion.2.2 _ (by decide)⟩

/-- C4: the classifier returns a Begin result only for a line carrying
the five fields hide, console, babel, babelPresetReact, babelPresetTS in
exactly that order, each with a value among true, false, null; a line
missing a field or with the fields reordered can never produce this
shape and so never classifies as Begin. -/
theorem C4_mandatory_field_classification (line : Str) (idx : Nat)
    (h c b r t : Str)
    (hm : mapMetaLine ⟨line, idx⟩ = some (.mlBegin idx h c b r t)) :
    triStr h ∧ triStr c ∧ triStr b ∧ triStr r ∧ triStr t ∧
    ∃ w1 w2 w3 w4 w5 tail, isJsWs w1 = true ∧ isJsWs w2 = true ∧
      isJsWs w3 = true ∧ isJsWs w4 = true ∧ isJsWs w5 = true ∧
      line = beginSnipLit ++ (lit "hide: " ++ (h ++ w1 ::
        (lit "console: " ++ (c ++ w2 :: (lit "babel: " ++ (b ++ w3 ::
        (lit "babelPresetReact: " ++ (r ++ w4 ::
        (lit "babelPresetTS: " ++ (t ++ w5 :: (arrowLit ++ tail))))))))))) := by
  unfold mapMetaLine at hm
  split at hm
  · exact absurd hm (by simp)
  · cases hlang : langSnippetMatch line with
    | some l => rw [hlang] at hm; exact absurd hm (by simp)
    | none =>
      rw [hlang] at hm
      dsimp only at hm
      cases hstart : startSnippetMatch line with
      | none => rw [hstart] at hm; exact absurd hm (by simp)
      | some q =>
        obtain ⟨qh, qc, qb, qr, qt⟩ := q
        rw [hstart] at hm
        dsimp only at hm
        split at hm
        · simp only [Option.some.injEq, MetaLine.mlBegin.injEq] at hm
          obtain ⟨-, e1, e2, e3, e4, e5⟩ := hm
          obtain ⟨t1, t2, t3, t4, t5, w1, w2, w3, w4, w5, tail,
            hx1, hx2, hx3, hx4, hx5, heq⟩ :=
            startSnippetMatch_some line qh qc qb qr qt hstart
          rw [jsOrNull_of_triStr _ t1] at e1
          rw [jsOrNull_of_triStr _ t2] at e2
          rw [jsOrNull_of_triStr _ t3] at e3
          rw [jsOrNull_of_triStr _ t4] at e4
          rw [jsOrNull_of_triStr _ t5] at e5
          subst e1; subst e2; subst e3; subst e4; subst e5
          exact ⟨t1, t2, t3, t4, t5, w1, w2, w3, w4, w5, tail,
            hx1, hx2, hx3, hx4, hx5, heq⟩
        · exact absurd hm (by simp)

/-- Witness for C4 at the concrete begin marker of spec section 6. -/
theorem C4_witness :
    triStr (lit "null") ∧ triStr (lit "true") ∧ triStr (lit "false") ∧
    triStr (lit "null") ∧ triStr (lit "null") ∧
    ∃ w1 w2 w3 w4 w5 tail, isJsWs w1 = true ∧ isJsWs w2 = true ∧
      isJsWs w3 = true ∧ isJsWs w4 = true ∧ isJsWs w5 = true ∧
      lit "<!-- begin snippet: js hide: null console: true babel: false babelPresetReact: null babelPresetTS: null -->" =
        beginSnipLit ++ (lit "hide: " ++ (lit "null" ++ w1 ::
        (lit "console: " ++ (lit "true" ++ w2 :: (lit "babel: " ++
        (lit "false" ++ w3 :: (lit "babelPresetReact: " ++ (lit "null" ++ w4 ::
        (lit "babelPresetTS: " ++ (lit "null" ++ w5 ::
          (arrowLit ++ tail))))))))))) :=
  C4_mandatory_field_classification
    (lit "<!-- begin snippet: js hide: null console: true babel: false babelPresetReact: null babelPresetTS: null -->")
    5 (lit "null") (lit "true") (lit "false") (lit "null") (lit "null")
    (by decide)

/-- C8 counterexample: `langSnippetRegex` is anchored only at the start
of the line, so the classifier also returns a Lang result for a line
with trailing content after the marker, contradicting the claim's
"nothing else on the line". -/
theorem C8_counterexample :
    mapMetaLine ⟨lit "<!-- language: lang-js --> junk", 0⟩ =
      some (.mlLang 0 (lit "js")) ∧
    lit "<!-- language: lang-js --> junk" ≠ langMarkerLine (lit "js") ∧
    lit "<!-- language: lang-js --> junk" ≠ langMarkerLine (lit "css") ∧
    lit "<!-- language: lang-js --> junk" ≠ langMarkerLine (lit "html") := by
  decide

/-- C8 (amended): for a line that is not the literal end marker, the
classifier returns a Lang result with language token t exactly when the
line starts with the marker prefix, one of the three tokens and the
closing arrow — trailing content after the marker is permitted. -/
theorem C8_lang_classification (line : Str) (idx : Nat) (t : Str)
    (hne : line ≠ endMarkerStr) :
    mapMetaLine ⟨line, idx⟩ = some (.mlLang idx t) ↔
      langTok t ∧ ∃ tail, line = langMarkerLine t ++ tail := by
  constructor
  · intro hm
    unfold mapMetaLine at hm
    rw [if_neg hne] at hm
    cases hlang : langSnippetMatch line with
    | none =>
      rw [hlang] at hm
      dsimp only at hm
      cases hstart : startSnippetMatch line with
      | none => rw [hstart] at hm; exact absurd hm (by simp)
      | some q =>
        obtain ⟨qh, qc, qb, qr, qt⟩ := q
        rw [hstart] at hm
        dsimp only at hm
        split at hm
        · exact absurd hm (by simp)
        · exact absurd hm (by simp)
    | some l =>
      rw [hlang] at hm
      dsimp only at hm
      simp only [Option.some.injEq, MetaLine.mlLang.injEq] at hm
      obtain ⟨-, hl⟩ := hm
      obtain ⟨htok, tail, heq⟩ := langSnippetMatch_some line l hlang
      refine ⟨hl ▸ htok, tail, ?_⟩
      rw [heq, ← hl]
      unfold langMarkerLine
      simp [List.append_assoc, List.cons_append]
  · rintro ⟨htok, tail, rfl⟩
    unfold mapMetaLine
    rw [if_neg hne]
    rw [langSnippetMatch_marker t tail htok]

/-- Witness for C8 at a concrete marker line. -/
theorem C8_witness :
    mapMetaLine ⟨langMarkerLine (lit "css"), 4⟩ =
      some (.mlLang 4 (lit "css")) :=
  (C8_lang_classification (langMarkerLine (lit "css")) 4 (lit "css")
    (by decide)).mpr ⟨by decide, [], by simp⟩

/-! ## The escape-preserving wrapper -/

lemma retagFirstRev_id (l : List Token) (h : ∀ tk ∈ l, tk.info ≠ "escape") :
    retagFirstRev l = l := by
  induction l with
  | nil => rfl
  | cons tk l ih =>
    rw [retagFirstRev]
    rw [if_neg (by
      rw [beq_eq_false_iff_ne.mpr (h tk (by simp))]
      simp)]
    rw [ih (fun tk2 htk2 => h tk2 (by simp [htk2]))]

/-- C9: without an "escape" rule in the host's inline rule set the built
wrapper is a constant non-match with no effect; with one, the wrapper
returns exactly the delegate's return value and, when the delegate
matched in non-silent mode, changes the type of the most recent token
whose info tag is "escape" to "escape", changing nothing otherwise — in
particular a token list without any escape-tagged token is unchanged. -/
theorem C9_escape_wrapper_delegation (rules : List (String × InlineRule))
    (st : InlineState) (silent : Bool) :
    (rules.filter (fun r => r.1 == "escape") = [] →
      buildPreserveEscapeFn rules st silent = (false, st)) ∧
    (∀ (nm : String) (f : InlineRule) (rest : List (String × InlineRule)),
      rules.filter (fun r => r.1 == "escape") = (nm, f) :: rest →
      (buildPreserveEscapeFn rules st silent).1 = (f st silent).1 ∧
      (buildPreserveEscapeFn rules st silent).2 =
        (if silent || !(f st silent).1 then (f st silent).2
         else { (f st silent).2 with
                tokens := retagLastEscape (f st silent).2.tokens })) ∧
    (∀ ts : List Token, (∀ tk ∈ ts, tk.info ≠ "escape") →
      retagLastEscape ts = ts) := by
  refine ⟨?_, ?_, ?_⟩
  · intro hnone
    unfold buildPreserveEscapeFn
    rw [hnone]
  · intro nm f rest hsome
    unfold buildPreserveEscapeFn
    rw [hsome]
    dsimp only
    constructor
    · split <;> rfl
    · split <;> rfl
  · intro ts hts
    unfold retagLastEscape
    rw [retagFirstRev_id _ (fun tk htk => hts tk (List.mem_reverse.mp htk))]
    exact List.reverse_reverse ts

/-- Witness for C9: the no-escape-rule fallback, the delegation shape for
a concrete delegate, and the no-escape-token identity, each at concrete
inputs. -/
theorem C9_witness :
    buildPreserveEscapeFn ([] : List (String × InlineRule)) {} true =
      (false, ({} : InlineState)) ∧
    ((buildPreserveEscapeFn [("escape", constFalseRule)] {} false).1 =
      (constFalseRule {} false).1 ∧
     (buildPreserveEscapeFn [("escape", constFalseRule)] {} false).2 =
      (if false || !(constFalseRule {} false).1 then (constFalseRule {} false).2
       else { (constFalseRule {} false).2 with
              tokens := retagLastEscape (constFalseRule {} false).2.tokens })) ∧
    retagLastEscape [] = [] :=
  ⟨(C9_escape_wrapper_delegation [] {} true).1 rfl,
   (C9_escape_wrapper_delegation [("escape", constFalseRule)] {} false).2.1
     "escape" constFalseRule [] rfl,
   (C9_escape_wrapper_delegation [] {} true).2.2 [] (by simp)⟩

/-! ## The content-span arithmetic of the extraction loop -/

lemma langTokens_zip (lines : List Str) (pairs : List MetaLine) (eIdx : Nat) :
    langTokens lines pairs eIdx =
      (pairs.zip (pairs.tail.map MetaLine.index ++ [eIdx])).map
        (fun pz =>
          ({ type := "stack_snippet_lang", tag := "code", nesting := 1,
             attrs := [("language", pz.1.langName)],
             content := getLinesModel lines (pz.1.index + 2) (pz.2 - 1) 4,
             map := some (pz.1.index, pz.2) } : Token)) := by
  induction pairs with
  | nil => rfl
  | cons m rest ih =>
    simp only [langTokens]
    cases rest with
    | nil => rfl
    | cons m2 rest2 =>
      dsimp only [List.tail_cons, List.map_cons, List.cons_append,
        List.zip_cons_cons, List.map_cons]
      rw [ih]
      rfl

lemma stripIndent_four_spaces (x : Str) : stripIndent 4 (lit "    " ++ x) = x := by
  unfold stripIndent
  rw [show lit "    " ++ x = ' ' :: ' ' :: ' ' :: ' ' :: x from by
    rw [show lit "    " = [' ', ' ', ' ', ' '] from by decide]; rfl]
  rw [show stripGo (' ' :: ' ' :: ' ' :: ' ' :: x) 4 0 = stripGo x 4 4 from by
    simp [stripGo]]
  rw [stripGo_stop]
  simp

/-- C6: whenever committing recognition succeeds, the emitted tokens are
one open token, then one token per sorted language meta-line whose
content is `getLines` of the span from that marker's index plus two up to
but excluding one before the next marker's index (or one before the end
marker's index for the last language) with a four-column de-indent, then
one close token; and the per-line de-indentation removes exactly a
four-space padding prefix, mapping fully empty lines to empty lines. -/
theorem C6_content_span_and_deindent :
    (∀ (st : StateBlock) (startLine endLine : Nat) (st' : StateBlock),
      parseSnippetBlock st startLine endLine false = (true, st') →
      ∃ (h c b r t : Str) (pairs : List MetaLine) (eIdx : Nat),
        st'.tokens = st.tokens ++ mkOpenToken h c b r t ::
          (((pairs.zip (pairs.tail.map MetaLine.index ++ [eIdx])).map
            (fun pz =>
              ({ type := "stack_snippet_lang", tag := "code", nesting := 1,
                 attrs := [("language", pz.1.langName)],
                 content := getLinesModel st.lines (pz.1.index + 2) (pz.2 - 1) 4,
                 map := some (pz.1.index, pz.2) } : Token))) ++ [closeToken]) ∧
        st'.line = eIdx + 1) ∧
    ((∀ x : Str, stripIndent 4 (lit "    " ++ x) = x) ∧
      stripIndent 4 [] = []) := by
  constructor
  · intro st s e st' hp
    unfold parseSnippetBlock at hp
    dsimp only at hp
    by_cases h1 : 4 ≤ (sCountOf (lineAt st.lines s) : Int) - (st.blkIndent : Int)
    · rw [if_pos h1] at hp; exact absurd hp (by simp)
    rw [if_neg h1] at hp
    by_cases h2 : st.blkIndent ≠ 0 ∨ tShiftOf (lineAt st.lines s) ≠ 0
    · rw [if_pos h2] at hp; exact absurd hp (by simp)
    rw [if_neg h2] at hp
    by_cases h3 : validSnippetTest (lineAt st.lines s) = false
    · rw [if_pos h3] at hp; exact absurd hp (by simp)
    rw [if_neg h3] at hp
    by_cases h4 : (false || !(validateMetaLines ((collectMeta
        (sliceL st.lines s e) s).filterMap mapMetaLine)).valid) = true
    · rw [if_pos h4] at hp
      have h4' : (validateMetaLines ((collectMeta
          (sliceL st.lines s e) s).filterMap mapMetaLine)).valid = false := by
        simpa using h4
      rw [h4'] at hp
      exact absurd hp (by simp)
    rw [if_neg h4] at hp
    cases hm : (collectMeta (sliceL st.lines s e) s).filterMap mapMetaLine with
    | nil => rw [hm] at hp; exact absurd hp (by simp)
    | cons m0 rest =>
      rw [hm] at hp
      cases m0 with
      | mlEnd i => exact absurd hp (by simp)
      | mlLang i l => exact absurd hp (by simp)
      | mlBegin i h c b r t =>
        dsimp only at hp
        cases hlast : rest.getLast? with
        | none => rw [hlast] at hp; exact absurd hp (by simp)
        | some mEnd =>
          rw [hlast] at hp
          cases mEnd with
          | mlBegin i2 h2 c2 b2 r2 t2 => exact absurd hp (by simp)
          | mlLang i2 l2 => exact absurd hp (by simp)
          | mlEnd eIdx =>
            dsimp only at hp
            by_cases h5 : (sortByIdx (rest.dropLast.filter
                MetaLine.isLang)).all MetaLine.isLang = false
            · rw [if_pos h5] at hp; exact absurd hp (by simp)
            rw [if_neg h5] at hp
            have hrec := congrArg Prod.snd hp
            dsimp only at hrec
            refine ⟨h, c, b, r, t,
              sortByIdx (rest.dropLast.filter MetaLine.isLang), eIdx, ?_, ?_⟩
            · rw [← hrec]
              dsimp only
              rw [← langTokens_zip]
            · rw [← hrec]
  · exact ⟨stripIndent_four_spaces, rfl⟩

/-- Witness for C6 at the concrete envelope of spec section 6. -/
theorem C6_witness :
    ∃ (h c b r t : Str) (pairs : List MetaLine) (eIdx : Nat),
      (parseSnippetBlock { lines := renderEnvelope exampleEnvelope } 0
          (renderEnvelope exampleEnvelope).length false).2.tokens =
        ({ lines := renderEnvelope exampleEnvelope } : StateBlock).tokens ++
          mkOpenToken h c b r t ::
          (((pairs.zip (pairs.tail.map MetaLine.index ++ [eIdx])).map
            (fun pz =>
              ({ type := "stack_snippet_lang", tag := "code", nesting := 1,
                 attrs := [("language", pz.1.langName)],
                 content := getLinesModel (renderEnvelope exampleEnvelope)
                   (pz.1.index + 2) (pz.2 - 1) 4,
                 map := some (pz.1.index, pz.2) } : Token))) ++ [closeToken]) ∧
      (parseSnippetBlock { lines := renderEnvelope exampleEnvelope } 0
          (renderEnvelope exampleEnvelope).length false).2.line = eIdx + 1 :=
  C6_content_span_and_deindent.1 { lines := renderEnvelope exampleEnvelope }
    0 (renderEnvelope exampleEnvelope).length
    (parseSnippetBlock { lines := renderEnvelope exampleEnvelope } 0
      (renderEnvelope exampleEnvelope).length false).2
    (by rw [parseSnippetBlock_envelope exampleEnvelope (by decide)])
